import Mathlib

/-!
Verification of the rjson single-file JSON parser (src/main.rs).

The Rust parser walks a `Peekable<CharIndices>` over the input string; we
embed it as state-passing functions over `St := List (Nat × Char)`, the list
of (UTF-8 byte offset, character) pairs produced by `charIndices` below,
exactly as Rust's `str::char_indices` produces them.  Fallible routines
return `Except ParseError (α × St)`.  The recursive value grammar is given
fuel (a `Nat` that every recursive call decrements); fuel exhaustion is the
artificial error `ParseError.outOfFuel`, and the top-level `parse` supplies
fuel that provably suffices for the inputs treated here.  Rust panics
(`unwrap` on a non-String key, the `unreachable!()` arm of `parse_number`)
are embedded as the error `ParseError.panic`.

Rust's `str::parse::<f64>` is modelled by `parseF64` as a sign flag plus the
exact rational value of the decimal literal (the literal strings the parser
builds consist only of an optional leading minus, digits and at most one
dot, so neither the exponent forms nor inf/nan forms of the Rust grammar are
reachable, and every reachable distinction -- including negative zero versus
positive zero, and conversion failure on the empty or bare-dot string -- is
preserved exactly).
-/

namespace RJson

/-- JSON values, mirroring the Rust enum Value.  Number carries the sign flag
and the exact rational magnitude of the converted literal (the sign flag
keeps negative zero distinct from positive zero). -/
inductive Value where
  | Null : Value
  | True : Value
  | False : Value
  | String : List Char → Value
  | Number : Bool → ℚ → Value
  | Array : List Value → Value
  | Object : List (List Char × Value) → Value
  deriving Repr

/-- Value::to_string from the source: Ok with the payload for the String
variant, Err(()) for every other variant. -/
def Value.to_string : Value → Except Unit (List Char)
  | .String s => .ok s
  | _ => .error ()

/-- Parse errors.  The Rust code returns formatted strings; the three
messages it can produce are kept as distinct constructors
(unexpectedToken idx ch renders as the string
"Unexpected token '<ch>' at position '<idx>'").  panic embeds a Rust panic,
outOfFuel is an artifact of the fueled embedding. -/
inductive ParseError where
  | unexpectedToken : Nat → Char → ParseError
  | unexpectedEndOfInput : ParseError
  | failedToParseNumber : ParseError
  | panic : ParseError
  | outOfFuel : ParseError
  deriving Repr, DecidableEq

/-- Remaining input of the cursor: the not-yet-consumed
(byte offset, character) pairs. -/
abbrev St := List (Nat × Char)

/-- Whitespace characters recognised by consume_whitespace. -/
def isWs (c : Char) : Bool :=
  c == ' ' || c == '\t' || c == '\r' || c == '\n'

/-- Parser::consume_whitespace. -/
def consume_whitespace : St → St
  | [] => []
  | (i, c) :: rest => if isWs c then consume_whitespace rest else (i, c) :: rest

/-- Parser::consume: consume the next character iff it equals ch. -/
def consume (ch : Char) : St → Bool × St
  | (i, c) :: rest => if c = ch then (true, rest) else (false, (i, c) :: rest)
  | [] => (false, [])

/-- Parser::try_consume: consume the next character, failing (with the
consumed character and its position, or end of input) if it is not ch. -/
def try_consume (ch : Char) : St → Except ParseError St
  | (i, c) :: rest => if ch = c then .ok rest else .error (.unexpectedToken i c)
  | [] => .error .unexpectedEndOfInput

/-- Parser::collect_digits: the maximal run of leading decimal digits,
paired with the state after them. -/
def collect_digits : St → List Char × St
  | (i, c) :: rest =>
    if c.isDigit then
      let (ds, st) := collect_digits rest
      (c :: ds, st)
    else ([], (i, c) :: rest)
  | [] => ([], [])

/-- Numeric value of a decimal digit string (most significant first). -/
def digitsToNat (s : List Char) : Nat :=
  s.foldl (fun acc c => 10 * acc + (c.toNat - '0'.toNat)) 0

/-- Split a character list at the first dot, if any. -/
def splitDot : List Char → List Char × Option (List Char)
  | [] => ([], none)
  | c :: t =>
    if c = '.' then ([], some t)
    else
      let (ip, r) := splitDot t
      (c :: ip, r)

/-- The optional leading sign of a float literal, and the remaining text. -/
def stripSign (s : List Char) : Bool × List Char :=
  match s with
  | '-' :: t => (true, t)
  | '+' :: t => (false, t)
  | _ => (false, s)

/-- Model of Rust str::parse::&lt;f64&gt; on the literals this parser builds:
an optional sign, then either digits, digits-dot-digits*, or dot-digits+
(at least one digit overall); the result is the sign and the exact rational
value of the literal.  The exponent and inf/nan forms of the Rust grammar
are omitted because parse_number never puts an exponent (or any letter)
into the buffer it converts. -/
def parseF64 (s : List Char) : Option (Bool × ℚ) :=
  let neg := (stripSign s).1
  let t := (stripSign s).2
  match splitDot t with
  | (ip, none) =>
    if ip ≠ [] ∧ ip.all Char.isDigit then some (neg, (digitsToNat ip : ℚ))
    else none
  | (ip, some fp) =>
    if (ip ++ fp) ≠ [] ∧ ip.all Char.isDigit ∧ fp.all Char.isDigit then
      some (neg, (digitsToNat ip : ℚ) + (digitsToNat fp : ℚ) / (10 : ℚ) ^ fp.length)
    else none

/-- Hex digit values: the sixteen case-insensitive match arms of
parse_unicode (digits map to 0-9, letters a-f and A-F to 10-15, anything
else is the error case), written as three contiguous ranges. -/
def hex_digit_val (c : Char) : Option Nat :=
  if '0' ≤ c ∧ c ≤ '9' then some (c.toNat - '0'.toNat)
  else if 'a' ≤ c ∧ c ≤ 'f' then some (c.toNat - 'a'.toNat + 10)
  else if 'A' ≤ c ∧ c ≤ 'F' then some (c.toNat - 'A'.toNat + 10)
  else none

/-- One step of parse_unicode's loop: consume a character and read it as a
hex digit, failing like Parser::error on a non-hex character or on end of
input. -/
def next_hex : St → Except ParseError (Nat × St)
  | (i, c) :: rest =>
    match hex_digit_val c with
    | some v => .ok (v, rest)
    | none => .error (.unexpectedToken i c)
  | [] => .error .unexpectedEndOfInput

/-- Parser::parse_unicode: four hex digits accumulated most significant
first (16^3 down to 16^0, as in the Rust loop over i = 3, 2, 1, 0), then
char::from_u32; an invalid scalar value reports an unexpected token 'u' at
the position start of the u that introduced the escape. -/
def parse_unicode (start : Nat) (st : St) : Except ParseError (Char × St) :=
  match next_hex st with
  | .error e => .error e
  | .ok (d3, st) =>
    match next_hex st with
    | .error e => .error e
    | .ok (d2, st) =>
      match next_hex st with
      | .error e => .error e
      | .ok (d1, st) =>
        match next_hex st with
        | .error e => .error e
        | .ok (d0, st) =>
          let value := 16 ^ 3 * d3 + 16 ^ 2 * d2 + 16 ^ 1 * d1 + 16 ^ 0 * d0
          if h : value.isValidChar then .ok (Char.ofNatAux value h, st)
          else .error (.unexpectedToken start 'u')

/-- The body of Parser::parse_string, with the accumulated characters of the
string so far and fuel bounding the number of loop iterations (each
iteration consumes at least one character, so length + 1 fuel suffices). -/
def parse_string_go (fuel : Nat) (string : List Char) (st : St) :
    Except ParseError (Value × St) :=
  match fuel with
  | 0 => .error .outOfFuel
  | fuel + 1 =>
    match st with
    | [] => .error .unexpectedEndOfInput
    | (_, ch) :: rest =>
      if ch = '"' then .ok (.String string, rest)
      else if ch = '\\' then
        match rest with
        | [] => .error .unexpectedEndOfInput
        | (j, c2) :: rest2 =>
          if c2 = '"' ∨ c2 = '\\' ∨ c2 = '/' then
            parse_string_go fuel (string ++ [c2]) rest2
          else if c2 = 'n' then parse_string_go fuel (string ++ ['\n']) rest2
          else if c2 = 'r' then parse_string_go fuel (string ++ ['\r']) rest2
          else if c2 = 't' then parse_string_go fuel (string ++ ['\t']) rest2
          else if c2 = 'u' then
            match parse_unicode j rest2 with
            | .ok (ch2, st2) => parse_string_go fuel (string ++ [ch2]) st2
            | .error e => .error e
          else .error (.unexpectedToken j c2)
      else parse_string_go fuel (string ++ [ch]) rest

/-- Parser::parse_string (the opening quote has already been consumed by the
caller). -/
def parse_string (st : St) : Except ParseError (Value × St) :=
  parse_string_go (st.length + 1) [] st

/-- The digit part of the exponent stage of parse_number: at least one
digit, then any further digits; the collected exponent text (pow in the
Rust source) is discarded, exactly as the source discards it. -/
def parse_exponent_digits (st : St) : Except ParseError St :=
  match st with
  | (i2, c3) :: rest3 =>
    if c3.isDigit then
      let ds := collect_digits rest3
      .ok ds.2
    else .error (.unexpectedToken i2 c3)
  | [] => .error .unexpectedEndOfInput

/-- The exponent stage of parse_number: on a leading e or E, consume it, an
optional sign (also only collected into the discarded pow buffer), then the
digit part.  Returns the state after the exponent. -/
def parse_exponent (st : St) : Except ParseError St :=
  match st with
  | [] => .ok st
  | (_, c) :: rest =>
    if c = 'e' ∨ c = 'E' then
      parse_exponent_digits
        (match rest with
          | (_, c2) :: rest2 => if c2 = '+' ∨ c2 = '-' then rest2 else rest
          | [] => rest)
    else .ok st

/-- The last stage of Parser::parse_number: the exponent stage, then float
conversion of the assembled buffer num (conversion failure is the internal
error Failed to parse number). -/
def parse_number_finish (num : List Char) (st : St) : Except ParseError (Value × St) :=
  match parse_exponent st with
  | .error e => .error e
  | .ok st3 =>
    match parseF64 num with
    | some nm => .ok (.Number nm.1 nm.2, st3)
    | none => .error .failedToParseNumber

/-- The tail of Parser::parse_number after the integer part: optional dot
with zero or more digits appended to the buffer, then the final stage. -/
def parse_number_tail (num : List Char) (st : St) : Except ParseError (Value × St) :=
  let dotted := consume '.' st
  if dotted.1 then
    let ds := collect_digits dotted.2
    parse_number_finish (num ++ '.' :: ds.1) ds.2
  else parse_number_finish num dotted.2

/-- Parser::parse_number; ch is the already consumed first character.  A
leading 0 followed by anything other than dot, e, E yields Number 0
immediately without touching the buffer; a leading minus requires a digit
next; the unreachable arm of the Rust match is the panic error. -/
def parse_number (ch : Char) (st : St) : Except ParseError (Value × St) :=
  if ch = '0' then
    match st with
    | (_, c) :: _ =>
      if c = '.' ∨ c = 'E' ∨ c = 'e' then parse_number_tail [] st
      else .ok (.Number false 0, st)
    | [] => .ok (.Number false 0, st)
  else if ch = '-' then
    match st with
    | (i, c) :: rest =>
      if c.isDigit then
        let ds := collect_digits rest
        parse_number_tail (ch :: c :: ds.1) ds.2
      else .error (.unexpectedToken i c)
    | [] => .error .unexpectedEndOfInput
  else if '1' ≤ ch ∧ ch ≤ '9' then
    let ds := collect_digits st
    parse_number_tail (ch :: ds.1) ds.2
  else .error .panic

/-- Parser::parse_literal: consume each expected character in order; any
mismatch or end of input fails with the mismatching character/position. -/
def parse_literal (values : List Char) (value : Value) (st : St) :
    Except ParseError (Value × St) :=
  match values with
  | [] => .ok (value, st)
  | expected :: vs =>
    match st with
    | (i, c) :: rest =>
      if c = expected then parse_literal vs value rest
      else .error (.unexpectedToken i c)
    | [] => .error .unexpectedEndOfInput

mutual

/-- Parser::parse_value: skip whitespace, dispatch on one consumed
character, skip whitespace after the production returns. -/
def parse_value : Nat → St → Except ParseError (Value × St)
  | 0, _ => .error .outOfFuel
  | fuel + 1, st =>
    match
      (match consume_whitespace st with
      | [] => .error .unexpectedEndOfInput
      | (i, c) :: rest =>
        if c = 'n' then parse_literal ['u', 'l', 'l'] .Null rest
        else if c = 't' then parse_literal ['r', 'u', 'e'] .True rest
        else if c = 'f' then parse_literal ['a', 'l', 's', 'e'] .False rest
        else if c = '"' then parse_string rest
        else if c = '[' then parse_array fuel rest
        else if c = '\x7b' then parse_object fuel rest
        else if c = '-' ∨ c.isDigit then parse_number c rest
        else .error (.unexpectedToken i c) : Except ParseError (Value × St))
    with
    | .ok vs => .ok (vs.1, consume_whitespace vs.2)
    | .error e => .error e

/-- Parser::parse_array (the opening bracket has been consumed): empty
array on an immediate closing bracket, else the element loop. -/
def parse_array : Nat → St → Except ParseError (Value × St)
  | 0, _ => .error .outOfFuel
  | fuel + 1, st =>
    let st1 := consume_whitespace st
    let closed := consume ']' st1
    if closed.1 then .ok (.Array [], closed.2)
    else parse_array_loop fuel [] closed.2

/-- The loop of Parser::parse_array: parse a value, append it, continue on
a comma, otherwise require the closing bracket. -/
def parse_array_loop : Nat → List Value → St → Except ParseError (Value × St)
  | 0, _, _ => .error .outOfFuel
  | fuel + 1, array, st =>
    match parse_value fuel st with
    | .error e => .error e
    | .ok vs =>
      let array1 := array ++ [vs.1]
      let comma := consume ',' vs.2
      if comma.1 then parse_array_loop fuel array1 comma.2
      else
        match try_consume ']' comma.2 with
        | .error e => .error e
        | .ok st2 => .ok (.Array array1, st2)

/-- Parser::parse_object (the opening brace has been consumed): empty
object on an immediate closing brace, else the member loop. -/
def parse_object : Nat → St → Except ParseError (Value × St)
  | 0, _ => .error .outOfFuel
  | fuel + 1, st =>
    let st1 := consume_whitespace st
    let closed := consume '\x7d' st1
    if closed.1 then .ok (.Object [], closed.2)
    else parse_object_loop fuel [] closed.2

/-- The loop of Parser::parse_object: whitespace, an opening quote, a
string key, whitespace, a colon, a value; the pair (with the key unwrapped
by Value::to_string -- panic if it is not a String) is appended; continue
on a comma, otherwise require the closing brace. -/
def parse_object_loop : Nat → List (List Char × Value) → St →
    Except ParseError (Value × St)
  | 0, _, _ => .error .outOfFuel
  | fuel + 1, key_values, st =>
    let st1 := consume_whitespace st
    match try_consume '"' st1 with
    | .error e => .error e
    | .ok st2 =>
      match parse_string st2 with
      | .error e => .error e
      | .ok ks =>
        let st3 := consume_whitespace ks.2
        match try_consume ':' st3 with
        | .error e => .error e
        | .ok st4 =>
          match parse_value fuel st4 with
          | .error e => .error e
          | .ok vs =>
            match ks.1.to_string with
            | .error _ => .error .panic
            | .ok key =>
              let key_values1 := key_values ++ [(key, vs.1)]
              let comma := consume ',' vs.2
              if comma.1 then parse_object_loop fuel key_values1 comma.2
              else
                match try_consume '\x7d' comma.2 with
                | .error e => .error e
                | .ok st5 => .ok (.Object key_values1, st5)

end

/-- The dispatch of Parser::parse_value, as a standalone function: consume
one character and select the production; any other character is an
unexpected token, an exhausted cursor is unexpected end of input.
parse_value at positive fuel is definitionally the dispatch on the
whitespace-stripped state followed by stripping trailing whitespace. -/
def parse_value_dispatch (fuel : Nat) (st1 : St) : Except ParseError (Value × St) :=
  match st1 with
  | [] => .error .unexpectedEndOfInput
  | (i, c) :: rest =>
    if c = 'n' then parse_literal ['u', 'l', 'l'] .Null rest
    else if c = 't' then parse_literal ['r', 'u', 'e'] .True rest
    else if c = 'f' then parse_literal ['a', 'l', 's', 'e'] .False rest
    else if c = '"' then parse_string rest
    else if c = '[' then parse_array fuel rest
    else if c = '\x7b' then parse_object fuel rest
    else if c = '-' ∨ c.isDigit then parse_number c rest
    else .error (.unexpectedToken i c)

/-- Parser::parse: one value, then the cursor must be exhausted; a
remaining character is an unexpected token at its position. -/
def Parser.parse (fuel : Nat) (st : St) : Except ParseError Value :=
  match parse_value fuel st with
  | .error e => .error e
  | .ok vs =>
    match vs.2 with
    | [] => .ok vs.1
    | (i, c) :: _ => .error (.unexpectedToken i c)

/-- The (byte offset, character) pairs of a character list starting at byte
offset k: exactly what Rust's str::char_indices yields for the string with
those characters. -/
def charIndices (k : Nat) : List Char → St
  | [] => []
  | c :: cs => (k, c) :: charIndices (k + c.utf8Size) cs

/-- Total UTF-8 byte length of a character list. -/
def utf8Len : List Char → Nat
  | [] => 0
  | c :: cs => c.utf8Size + utf8Len cs

/-- The free function parse: run the parser over the char_indices of the
input.  The fuel is an upper bound on the recursion depth of the fueled
embedding; three fuel units per character plus a constant is always
enough. -/
def parse (s : List Char) : Except ParseError Value :=
  Parser.parse (3 * s.length + 3) (charIndices 0 s)

/-- An unexpected-token error carries a pair of the given state (used to
state that every reported token error points at an actual remaining
character of the cursor, at its recorded byte offset). -/
def TokIn (st : St) : ParseError → Prop
  | .unexpectedToken i c => (i, c) ∈ st
  | _ => True

/-- The states on which the string-body scan of parse_string runs off the
end of the input without finding an unescaped closing quote and without
first hitting a bad escape: the body is a sequence of plain characters,
recognized simple escapes, and unicode escapes whose four hex digits
decode to a valid character, and the input ends either between such
units, right after a lone backslash, or inside the four hex digits of a
unicode escape (escUnicodeEnd: the cursor itself hits end of input while
reading them).  This is the scope of the amended claim C7; a body that
instead reaches an unrecognized escape character, a non-hex digit inside
a unicode escape, or an invalid scalar before the input ends gets a token
error even though the string is unterminated (see the counterexample). -/
inductive Unterminated : St → Prop where
  | nil : Unterminated []
  | plain (i : Nat) (c : Char) (rest : St) : c ≠ '"' → c ≠ '\\' →
      Unterminated rest → Unterminated ((i, c) :: rest)
  | escEnd (i : Nat) : Unterminated [(i, '\\')]
  | escSimple (i j : Nat) (c : Char) (rest : St) :
      c = '"' ∨ c = '\\' ∨ c = '/' ∨ c = 'n' ∨ c = 'r' ∨ c = 't' →
      Unterminated rest → Unterminated ((i, '\\') :: (j, c) :: rest)
  | escUnicode (i j : Nat) (rest st' : St) (ch : Char) :
      parse_unicode j rest = .ok (ch, st') → Unterminated st' →
      Unterminated ((i, '\\') :: (j, 'u') :: rest)
  | escUnicodeEnd (i j : Nat) (rest : St) :
      parse_unicode j rest = .error .unexpectedEndOfInput →
      Unterminated ((i, '\\') :: (j, 'u') :: rest)

/-- Classification of every result a value-producing parsing routine can
return when run on the state st: success with a suffix of st as the
remaining state, an unexpected-token error pointing at an actual remaining
(byte offset, character) pair of st, unexpected end of input, the internal
numeric-conversion error, or fuel exhaustion.  In particular a classified
result is never the panic error. -/
def Classified (st : St) (r : Except ParseError (Value × St)) : Prop :=
  (∃ v st', r = .ok (v, st') ∧ st' <:+ st) ∨
  (∃ i c, r = .error (.unexpectedToken i c) ∧ (i, c) ∈ st) ∨
  r = .error .unexpectedEndOfInput ∨
  r = .error .failedToParseNumber ∨
  r = .error .outOfFuel

/-- Classification of every result of a state-returning routine (the
exponent stage): success with a suffix of st, a token error pointing into
st, or unexpected end of input. -/
def ExClassified (st : St) (r : Except ParseError St) : Prop :=
  (∃ st', r = .ok st' ∧ st' <:+ st) ∨
  (∃ i c, r = .error (.unexpectedToken i c) ∧ (i, c) ∈ st) ∨
  r = .error .unexpectedEndOfInput

/-- Classification of every result of the string production: like
Classified, but a successful result is always a String value and the
conversion error cannot occur. -/
def StrClassified (st : St) (r : Except ParseError (Value × St)) : Prop :=
  (∃ s st', r = .ok (.String s, st') ∧ st' <:+ st) ∨
  (∃ i c, r = .error (.unexpectedToken i c) ∧ (i, c) ∈ st) ∨
  r = .error .unexpectedEndOfInput ∨
  r = .error .outOfFuel

/-- Comma-separated concatenation of rendered element texts. -/
def sepComma : List (List Char) → List Char
  | [] => []
  | [t] => t
  | t :: ts => t ++ ',' :: sepComma ts

/-- A safe continuation after a rendered number literal: empty, or starting
with a character that the number grammar would not absorb. -/
def numSafe : List Char → Prop
  | [] => True
  | c :: _ => ¬(c.isDigit ∨ c = '.' ∨ c = 'e' ∨ c = 'E')

/-- The rendering relation for claim C8: JTxt v txt states that txt is a
source text (without optional whitespace) denoting the value v, with array
element texts and object member texts laid out left to right in exactly the
order of the element/pair lists of v, and with no condition whatsoever
relating distinct object keys, so duplicate keys are allowed and each
occurrence keeps its own pair.  Strings and keys are restricted to
escape-free bodies and numbers to unsigned integer literals; this is enough
to express the ordering and duplicate-key content of the claim. -/
inductive JTxt : Value → List Char → Prop where
  | null : JTxt .Null ['n', 'u', 'l', 'l']
  | tru : JTxt .True ['t', 'r', 'u', 'e']
  | fls : JTxt .False ['f', 'a', 'l', 's', 'e']
  | str (s : List Char) : (∀ c ∈ s, c ≠ '"' ∧ c ≠ '\\') →
      JTxt (.String s) ('"' :: (s ++ ['"']))
  | zero : JTxt (.Number false 0) ['0']
  | num (d : Char) (ds : List Char) : '1' ≤ d → d ≤ '9' → (∀ c ∈ ds, c.isDigit) →
      JTxt (.Number false ((digitsToNat (d :: ds) : ℚ))) (d :: ds)
  | arrNil : JTxt (.Array []) ['[', ']']
  | arr (items : List (Value × List Char)) : items ≠ [] →
      (∀ p ∈ items, JTxt p.1 p.2) →
      JTxt (.Array (items.map Prod.fst)) ('[' :: (sepComma (items.map Prod.snd) ++ [']']))
  | objNil : JTxt (.Object []) ['\x7b', '\x7d']
  | obj (items : List (List Char × Value × List Char)) : items ≠ [] →
      (∀ p ∈ items, ∀ c ∈ p.1, c ≠ '"' ∧ c ≠ '\\') →
      (∀ p ∈ items, JTxt p.2.1 p.2.2) →
      JTxt (.Object (items.map (fun p => (p.1, p.2.1))))
        ('\x7b' :: (sepComma (items.map (fun p => '"' :: (p.1 ++ '"' :: ':' :: p.2.2))) ++ ['\x7d']))

/-! Helper lemmas. -/

theorem char_eq_of_toNat_eq {a b : Char} (h : a.toNat = b.toNat) : a = b :=
  Char.ext (UInt32.ext_iff.mpr h)

theorem toNat_ofNatAux (n : Nat) (h : n.isValidChar) : (Char.ofNatAux n h).toNat = n :=
  rfl

theorem parse_unicode_length {start : Nat} {st : St} {ch : Char} {st' : St}
    (h : parse_unicode start st = .ok (ch, st')) : st'.length ≤ st.length := by
  rcases st with _ | ⟨⟨i0, c0⟩, t0⟩
  · simp [parse_unicode, next_hex] at h
  rcases hv0 : hex_digit_val c0 with _ | v0
  · simp [parse_unicode, next_hex, hv0] at h
  rcases t0 with _ | ⟨⟨i1, c1⟩, t1⟩
  · simp [parse_unicode, next_hex, hv0] at h
  rcases hv1 : hex_digit_val c1 with _ | v1
  · simp [parse_unicode, next_hex, hv0, hv1] at h
  rcases t1 with _ | ⟨⟨i2, c2⟩, t2⟩
  · simp [parse_unicode, next_hex, hv0, hv1] at h
  rcases hv2 : hex_digit_val c2 with _ | v2
  · simp [parse_unicode, next_hex, hv0, hv1, hv2] at h
  rcases t2 with _ | ⟨⟨i3, c3⟩, t3⟩
  · simp [parse_unicode, next_hex, hv0, hv1, hv2] at h
  rcases hv3 : hex_digit_val c3 with _ | v3
  · simp [parse_unicode, next_hex, hv0, hv1, hv2, hv3] at h
  simp only [parse_unicode, next_hex, hv0, hv1, hv2, hv3] at h
  split at h
  · rw [Except.ok.injEq, Prod.mk.injEq] at h
    rw [← h.2]
    simp
    omega
  · exact absurd h (by simp)

theorem charIndices_length (k : Nat) (l : List Char) :
    (charIndices k l).length = l.length := by
  induction l generalizing k with
  | nil => rfl
  | cons c cs ih => simp [charIndices, ih]

theorem suffix_step {l1 l2 : St} (p : Nat × Char) (h : l1 <:+ l2) : l1 <:+ p :: l2 :=
  h.trans (List.suffix_cons p l2)

theorem consume_whitespace_suffix (st : St) : consume_whitespace st <:+ st := by
  induction st with
  | nil => exact List.suffix_refl _
  | cons p rest ih =>
    obtain ⟨i, c⟩ := p
    simp only [consume_whitespace]
    split
    · exact suffix_step _ ih
    · exact List.suffix_refl _

theorem consume_whitespace_head {st : St} {i : Nat} {c : Char} {tl : St}
    (h : consume_whitespace st = (i, c) :: tl) : isWs c = false := by
  induction st with
  | nil => simp [consume_whitespace] at h
  | cons p rest ih =>
    obtain ⟨j, d⟩ := p
    simp only [consume_whitespace] at h
    split at h
    · exact ih h
    · rename_i hws
      obtain ⟨h1, h2⟩ := Prod.mk.injEq .. ▸ (List.cons.injEq .. ▸ h).1
      rw [← h2]
      simpa using hws

theorem consume_suffix (ch : Char) (st : St) : (consume ch st).2 <:+ st := by
  rcases st with _ | ⟨⟨i, c⟩, rest⟩
  · exact List.suffix_refl _
  · simp only [consume]
    split
    · exact (List.suffix_cons _ _)
    · exact List.suffix_refl _

theorem try_consume_ok_suffix {ch : Char} {st st' : St}
    (h : try_consume ch st = .ok st') : st' <:+ st := by
  rcases st with _ | ⟨⟨i, c⟩, rest⟩
  · simp [try_consume] at h
  · simp only [try_consume] at h
    split at h
    · rw [Except.ok.injEq] at h
      rw [← h]
      exact List.suffix_cons _ _
    · simp at h

theorem try_consume_err {ch : Char} {st : St} {e : ParseError}
    (h : try_consume ch st = .error e) :
    (∃ i c, e = .unexpectedToken i c ∧ (i, c) ∈ st) ∨ e = .unexpectedEndOfInput := by
  rcases st with _ | ⟨⟨i, c⟩, rest⟩
  · simp only [try_consume] at h
    right
    rw [Except.error.injEq] at h
    exact h.symm
  · simp only [try_consume] at h
    split at h
    · simp at h
    · rw [Except.error.injEq] at h
      exact Or.inl ⟨i, c, h.symm, List.mem_cons_self _ _⟩

theorem collect_digits_suffix (st : St) : (collect_digits st).2 <:+ st := by
  induction st with
  | nil => exact List.suffix_refl _
  | cons p rest ih =>
    obtain ⟨i, c⟩ := p
    simp only [collect_digits]
    split
    · exact suffix_step _ ih
    · exact List.suffix_refl _

theorem parse_unicode_cases (start : Nat) (st : St) :
    (∃ ch st', parse_unicode start st = .ok (ch, st') ∧ st' <:+ st) ∨
    (∃ i c, parse_unicode start st = .error (.unexpectedToken i c) ∧ (i, c) ∈ st) ∨
    parse_unicode start st = .error (.unexpectedToken start 'u') ∨
    parse_unicode start st = .error .unexpectedEndOfInput := by
  rcases st with _ | ⟨⟨i0, c0⟩, t0⟩
  · exact Or.inr (Or.inr (Or.inr (by simp [parse_unicode, next_hex])))
  rcases hv0 : hex_digit_val c0 with _ | v0
  · exact Or.inr (Or.inl ⟨i0, c0, by simp [parse_unicode, next_hex, hv0], by simp⟩)
  rcases t0 with _ | ⟨⟨i1, c1⟩, t1⟩
  · exact Or.inr (Or.inr (Or.inr (by simp [parse_unicode, next_hex, hv0])))
  rcases hv1 : hex_digit_val c1 with _ | v1
  · exact Or.inr (Or.inl ⟨i1, c1, by simp [parse_unicode, next_hex, hv0, hv1], by simp⟩)
  rcases t1 with _ | ⟨⟨i2, c2⟩, t2⟩
  · exact Or.inr (Or.inr (Or.inr (by simp [parse_unicode, next_hex, hv0, hv1])))
  rcases hv2 : hex_digit_val c2 with _ | v2
  · exact Or.inr (Or.inl ⟨i2, c2, by simp [parse_unicode, next_hex, hv0, hv1, hv2], by simp⟩)
  rcases t2 with _ | ⟨⟨i3, c3⟩, t3⟩
  · exact Or.inr (Or.inr (Or.inr (by simp [parse_unicode, next_hex, hv0, hv1, hv2])))
  rcases hv3 : hex_digit_val c3 with _ | v3
  · exact Or.inr (Or.inl ⟨i3, c3,
      by simp [parse_unicode, next_hex, hv0, hv1, hv2, hv3], by simp⟩)
  simp only [parse_unicode, next_hex, hv0, hv1, hv2, hv3]
  split
  · refine Or.inl ⟨_, t3, rfl, ?_⟩
    exact suffix_step _ (suffix_step _ (suffix_step _ (List.suffix_cons _ _)))
  · exact Or.inr (Or.inr (Or.inl rfl))

theorem parse_unicode_suffix {start : Nat} {st : St} {ch : Char} {st' : St}
    (h : parse_unicode start st = .ok (ch, st')) : st' <:+ st := by
  rcases parse_unicode_cases start st with ⟨ch1, st1, he, hs⟩ | ⟨i, c, he, _⟩ | he | he
  · rw [h] at he
    rw [Except.ok.injEq, Prod.mk.injEq] at he
    rw [he.2]
    exact hs
  all_goals rw [h] at he; exact absurd he (by simp)

theorem Classified.monoC {st1 st2 : St} (hs : st1 <:+ st2)
    {r : Except ParseError (Value × St)} (h : Classified st1 r) : Classified st2 r := by
  rcases h with ⟨v, st', he, h'⟩ | ⟨i, c, he, hm⟩ | he | he | he
  · exact Or.inl ⟨v, st', he, h'.trans hs⟩
  · exact Or.inr (Or.inl ⟨i, c, he, hs.subset hm⟩)
  · exact Or.inr (Or.inr (Or.inl he))
  · exact Or.inr (Or.inr (Or.inr (Or.inl he)))
  · exact Or.inr (Or.inr (Or.inr (Or.inr he)))

theorem StrClassified.monoS {st1 st2 : St} (hs : st1 <:+ st2)
    {r : Except ParseError (Value × St)} (h : StrClassified st1 r) : StrClassified st2 r := by
  rcases h with ⟨s, st', he, h'⟩ | ⟨i, c, he, hm⟩ | he | he
  · exact Or.inl ⟨s, st', he, h'.trans hs⟩
  · exact Or.inr (Or.inl ⟨i, c, he, hs.subset hm⟩)
  · exact Or.inr (Or.inr (Or.inl he))
  · exact Or.inr (Or.inr (Or.inr he))

theorem StrClassified.toClassified {st : St} {r : Except ParseError (Value × St)}
    (h : StrClassified st r) : Classified st r := by
  rcases h with ⟨s, st', he, h'⟩ | ⟨i, c, he, hm⟩ | he | he
  · exact Or.inl ⟨.String s, st', he, h'⟩
  · exact Or.inr (Or.inl ⟨i, c, he, hm⟩)
  · exact Or.inr (Or.inr (Or.inl he))
  · exact Or.inr (Or.inr (Or.inr (Or.inr he)))

theorem parse_string_go_cases (fuel : Nat) : ∀ acc st,
    StrClassified st (parse_string_go fuel acc st) := by
  induction fuel with
  | zero => exact fun acc st => Or.inr (Or.inr (Or.inr rfl))
  | succ fuel ih =>
    intro acc st
    rcases st with _ | ⟨⟨i, ch⟩, rest⟩
    · exact Or.inr (Or.inr (Or.inl rfl))
    simp only [parse_string_go]
    split
    · exact Or.inl ⟨acc, rest, rfl, List.suffix_cons _ _⟩
    split
    · split
      · exact Or.inr (Or.inr (Or.inl rfl))
      · rename_i j c2 rest2
        split
        · exact (ih _ rest2).monoS (suffix_step _ (List.suffix_cons _ _))
        split
        · exact (ih _ rest2).monoS (suffix_step _ (List.suffix_cons _ _))
        split
        · exact (ih _ rest2).monoS (suffix_step _ (List.suffix_cons _ _))
        split
        · exact (ih _ rest2).monoS (suffix_step _ (List.suffix_cons _ _))
        split
        · rename_i hcu
          rcases hpu : parse_unicode j rest2 with e | ⟨ch2, st2⟩
          · rcases parse_unicode_cases j rest2 with
              ⟨c', s', he, _⟩ | ⟨i', c', he, hm⟩ | he | he
            · exact absurd (hpu.symm.trans he) (by simp)
            · rw [Except.error.inj (hpu.symm.trans he)]
              exact Or.inr (Or.inl ⟨i', c', rfl,
                List.mem_cons_of_mem _ (List.mem_cons_of_mem _ hm)⟩)
            · rw [Except.error.inj (hpu.symm.trans he)]
              refine Or.inr (Or.inl ⟨j, 'u', rfl, ?_⟩)
              rw [← hcu]
              exact List.mem_cons_of_mem _ (List.mem_cons_self _ _)
            · rw [Except.error.inj (hpu.symm.trans he)]
              exact Or.inr (Or.inr (Or.inl rfl))
          · exact (ih _ st2).monoS
              (suffix_step _ (suffix_step _ (parse_unicode_suffix hpu)))
        · exact Or.inr (Or.inl ⟨j, c2, rfl,
            List.mem_cons_of_mem _ (List.mem_cons_self _ _)⟩)
    · exact (ih _ rest).monoS (List.suffix_cons _ _)

theorem parse_string_cases (st : St) : StrClassified st (parse_string st) :=
  parse_string_go_cases _ [] st

theorem parse_string_shape {st : St} {v : Value} {st' : St}
    (h : parse_string st = .ok (v, st')) : ∃ s, v = .String s := by
  rcases parse_string_cases st with ⟨s, s', he, _⟩ | ⟨i, c, he, _⟩ | he | he
  · rw [h] at he
    rw [Except.ok.injEq, Prod.mk.injEq] at he
    exact ⟨s, he.1⟩
  all_goals rw [h] at he; exact absurd he (by simp)

theorem parse_string_ok_elim {st : St} {v : Value} {st' : St}
    (h : parse_string st = .ok (v, st')) : (∃ s, v = .String s) ∧ st' <:+ st := by
  rcases parse_string_cases st with ⟨s, s', he, hs⟩ | ⟨i, c, he, _⟩ | he | he
  · rw [h] at he
    rw [Except.ok.injEq, Prod.mk.injEq] at he
    exact ⟨⟨s, he.1⟩, by rw [he.2]; exact hs⟩
  all_goals rw [h] at he; exact absurd he (by simp)

theorem digit_ge_one {ch : Char} (hd : ch.isDigit = true) (h0 : ¬ch = '0') :
    '1' ≤ ch ∧ ch ≤ '9' := by
  simp [Char.isDigit] at hd
  obtain ⟨ha, hb⟩ := hd
  have h2 : ch.toNat ≠ 48 := fun h => h0 (Char.ext (UInt32.ext_iff.mpr h))
  have ha' : 48 ≤ ch.toNat := ha
  have hb' : ch.toNat ≤ 57 := hb
  constructor
  · show 49 ≤ ch.toNat
    omega
  · show ch.toNat ≤ 57
    omega

theorem ExClassified.monoE {st1 st2 : St} (hs : st1 <:+ st2)
    {r : Except ParseError St} (h : ExClassified st1 r) : ExClassified st2 r := by
  rcases h with ⟨st', he, h'⟩ | ⟨i, c, he, hm⟩ | he
  · exact Or.inl ⟨st', he, h'.trans hs⟩
  · exact Or.inr (Or.inl ⟨i, c, he, hs.subset hm⟩)
  · exact Or.inr (Or.inr he)

theorem parse_exponent_digits_cases (st : St) :
    ExClassified st (parse_exponent_digits st) := by
  rcases st with _ | ⟨⟨i2, c3⟩, rest3⟩
  · exact Or.inr (Or.inr rfl)
  simp only [parse_exponent_digits]
  split
  · exact Or.inl ⟨_, rfl, suffix_step _ (collect_digits_suffix rest3)⟩
  · exact Or.inr (Or.inl ⟨i2, c3, rfl, List.mem_cons_self _ _⟩)

theorem parse_exponent_cases (st : St) : ExClassified st (parse_exponent st) := by
  rcases st with _ | ⟨⟨i, c⟩, rest⟩
  · exact Or.inl ⟨[], rfl, List.suffix_refl _⟩
  simp only [parse_exponent]
  split
  · split
    · rename_i i2 c2 rest2
      split
      · exact (parse_exponent_digits_cases rest2).monoE
          (suffix_step _ (List.suffix_cons _ _))
      · exact (parse_exponent_digits_cases _).monoE (List.suffix_cons _ _)
    · exact (parse_exponent_digits_cases _).monoE (List.suffix_cons _ _)
  · exact Or.inl ⟨(i, c) :: rest, rfl, List.suffix_refl _⟩

theorem parse_exponent_ok_suffix {st st' : St}
    (h : parse_exponent st = .ok st') : st' <:+ st := by
  rcases parse_exponent_cases st with ⟨s', he, hs⟩ | ⟨i, c, he, _⟩ | he
  · rw [h] at he
    rw [Except.ok.injEq] at he
    rw [he]
    exact hs
  all_goals rw [h] at he; exact absurd he (by simp)

theorem parse_number_finish_cases (num : List Char) (st : St) :
    Classified st (parse_number_finish num st) := by
  simp only [parse_number_finish]
  rcases hpx : parse_exponent st with e | st3
  · rcases parse_exponent_cases st with ⟨s', he, _⟩ | ⟨i, c, he, hm⟩ | he
    · exact absurd (hpx.symm.trans he) (by simp)
    · rw [Except.error.inj (hpx.symm.trans he)]
      exact Or.inr (Or.inl ⟨i, c, rfl, hm⟩)
    · rw [Except.error.inj (hpx.symm.trans he)]
      exact Or.inr (Or.inr (Or.inl rfl))
  · rcases parseF64 num with _ | nm
    · exact Or.inr (Or.inr (Or.inr (Or.inl rfl)))
    · exact Or.inl ⟨_, st3, rfl, parse_exponent_ok_suffix hpx⟩

theorem parse_number_tail_cases (num : List Char) (st : St) :
    Classified st (parse_number_tail num st) := by
  simp only [parse_number_tail]
  split
  · exact (parse_number_finish_cases _ _).monoC
      ((collect_digits_suffix _).trans (consume_suffix '.' st))
  · exact (parse_number_finish_cases _ _).monoC (consume_suffix '.' st)

theorem parse_number_cases (ch : Char) (st : St) (hch : ch = '-' ∨ ch.isDigit) :
    Classified st (parse_number ch st) := by
  simp only [parse_number]
  split
  · split
    · split
      · exact parse_number_tail_cases [] _
      · exact Or.inl ⟨_, _, rfl, List.suffix_refl _⟩
    · exact Or.inl ⟨_, _, rfl, List.suffix_refl _⟩
  · split
    · split
      · rename_i i c rest
        split
        · exact (parse_number_tail_cases _ _).monoC
            ((collect_digits_suffix _).trans (List.suffix_cons _ _))
        · exact Or.inr (Or.inl ⟨i, c, rfl, List.mem_cons_self _ _⟩)
      · exact Or.inr (Or.inr (Or.inl rfl))
    · split
      · exact (parse_number_tail_cases _ _).monoC (collect_digits_suffix _)
      · rename_i h0 hm h19
        exfalso
        rcases hch with rfl | hd
        · exact hm rfl
        · exact h19 (digit_ge_one hd h0)

theorem parse_literal_cases (values : List Char) (value : Value) : ∀ st,
    (∃ st', parse_literal values value st = .ok (value, st') ∧ st' <:+ st) ∨
    (∃ i c, parse_literal values value st = .error (.unexpectedToken i c) ∧ (i, c) ∈ st) ∨
    parse_literal values value st = .error .unexpectedEndOfInput := by
  induction values with
  | nil => exact fun st => Or.inl ⟨st, rfl, List.suffix_refl _⟩
  | cons expected vs ih =>
    intro st
    rcases st with _ | ⟨⟨i, c⟩, rest⟩
    · exact Or.inr (Or.inr rfl)
    simp only [parse_literal]
    split
    · rcases ih rest with ⟨st', he, hs⟩ | ⟨i', c', he, hm⟩ | he
      · exact Or.inl ⟨st', he, suffix_step _ hs⟩
      · exact Or.inr (Or.inl ⟨i', c', he, List.mem_cons_of_mem _ hm⟩)
      · exact Or.inr (Or.inr he)
    · exact Or.inr (Or.inl ⟨i, c, rfl, List.mem_cons_self _ _⟩)

theorem parse_literal_classified (values : List Char) (value : Value) (st : St) :
    Classified st (parse_literal values value st) := by
  rcases parse_literal_cases values value st with ⟨st', he, hs⟩ | ⟨i, c, he, hm⟩ | he
  · exact Or.inl ⟨value, st', he, hs⟩
  · exact Or.inr (Or.inl ⟨i, c, he, hm⟩)
  · exact Or.inr (Or.inr (Or.inl he))

theorem parse_value_succ (fuel : Nat) (st : St) :
    parse_value (fuel + 1) st =
      match parse_value_dispatch fuel (consume_whitespace st) with
      | .ok vs => .ok (vs.1, consume_whitespace vs.2)
      | .error e => .error e :=
  rfl

theorem parsers_classified (fuel : Nat) :
    (∀ st, Classified st (parse_value fuel st)) ∧
    (∀ st, Classified st (parse_array fuel st)) ∧
    (∀ acc st, Classified st (parse_array_loop fuel acc st)) ∧
    (∀ st, Classified st (parse_object fuel st)) ∧
    (∀ acc st, Classified st (parse_object_loop fuel acc st)) := by
  induction fuel with
  | zero =>
    exact ⟨fun st => Or.inr (Or.inr (Or.inr (Or.inr rfl))),
      fun st => Or.inr (Or.inr (Or.inr (Or.inr rfl))),
      fun acc st => Or.inr (Or.inr (Or.inr (Or.inr rfl))),
      fun st => Or.inr (Or.inr (Or.inr (Or.inr rfl))),
      fun acc st => Or.inr (Or.inr (Or.inr (Or.inr rfl)))⟩
  | succ fuel ih =>
    obtain ⟨ihv, iha, ihal, iho, ihol⟩ := ih
    have hdis : ∀ st1, Classified st1 (parse_value_dispatch fuel st1) := by
      intro st1
      rcases st1 with _ | ⟨⟨i, c⟩, rest⟩
      · exact Or.inr (Or.inr (Or.inl rfl))
      simp only [parse_value_dispatch]
      split
      · exact (parse_literal_classified _ _ rest).monoC (List.suffix_cons _ _)
      split
      · exact (parse_literal_classified _ _ rest).monoC (List.suffix_cons _ _)
      split
      · exact (parse_literal_classified _ _ rest).monoC (List.suffix_cons _ _)
      split
      · exact (parse_string_cases rest).toClassified.monoC (List.suffix_cons _ _)
      split
      · exact (iha rest).monoC (List.suffix_cons _ _)
      split
      · exact (iho rest).monoC (List.suffix_cons _ _)
      split
      · rename_i hnum
        exact (parse_number_cases c rest hnum).monoC (List.suffix_cons _ _)
      · exact Or.inr (Or.inl ⟨i, c, rfl, List.mem_cons_self _ _⟩)
    refine ⟨?_, ?_, ?_, ?_, ?_⟩
    · intro st
      rw [parse_value_succ]
      rcases hd : parse_value_dispatch fuel (consume_whitespace st) with e | vs
      · have hcl := hdis (consume_whitespace st)
        rw [hd] at hcl
        exact hcl.monoC (consume_whitespace_suffix st)
      · have hcl := hdis (consume_whitespace st)
        rw [hd] at hcl
        rcases hcl with ⟨v, st', he, hsuf⟩ | ⟨i, c, he, _⟩ | he | he | he
        · refine Or.inl ⟨vs.1, consume_whitespace vs.2, rfl, ?_⟩
          rw [Except.ok.injEq] at he
          have h2 : vs.2 <:+ consume_whitespace st := by rw [he]; exact hsuf
          exact (consume_whitespace_suffix vs.2).trans
            (h2.trans (consume_whitespace_suffix st))
        all_goals exact absurd he (by simp)
    · intro st
      simp only [parse_array]
      split
      · exact Or.inl ⟨_, _, rfl, (consume_suffix _ _).trans (consume_whitespace_suffix st)⟩
      · exact (ihal [] _).monoC ((consume_suffix _ _).trans (consume_whitespace_suffix st))
    · intro acc st
      simp only [parse_array_loop]
      rcases hpv : parse_value fuel st with e | vs
      · have hcl := ihv st
        rw [hpv] at hcl
        exact hcl
      · obtain ⟨v0, st0⟩ := vs
        have hcl := ihv st
        rw [hpv] at hcl
        have hs : st0 <:+ st := by
          rcases hcl with ⟨v, st', he, hsuf⟩ | ⟨i, c, he, _⟩ | he | he | he
          · rw [Except.ok.injEq, Prod.mk.injEq] at he
            rw [he.2]
            exact hsuf
          all_goals exact absurd he (by simp)
        show Classified st
          (if (consume ',' st0).1 = true then
            parse_array_loop fuel (acc ++ [v0]) (consume ',' st0).2
          else
            match try_consume ']' (consume ',' st0).2 with
            | .error e => .error e
            | .ok st2 => .ok (.Array (acc ++ [v0]), st2))
        split
        · exact (ihal _ _).monoC ((consume_suffix _ _).trans hs)
        · rcases htc : try_consume ']' (consume ',' st0).2 with e2 | st2
          · rcases try_consume_err htc with ⟨i, c, he2, hm⟩ | he2
            · rw [he2]
              exact Or.inr (Or.inl ⟨i, c, rfl,
                (((consume_suffix _ _).trans hs)).subset hm⟩)
            · rw [he2]
              exact Or.inr (Or.inr (Or.inl rfl))
          · exact Or.inl ⟨_, st2, rfl,
              (try_consume_ok_suffix htc).trans ((consume_suffix _ _).trans hs)⟩
    · intro st
      simp only [parse_object]
      split
      · exact Or.inl ⟨_, _, rfl, (consume_suffix _ _).trans (consume_whitespace_suffix st)⟩
      · exact (ihol [] _).monoC ((consume_suffix _ _).trans (consume_whitespace_suffix st))
    · intro acc st
      simp only [parse_object_loop]
      rcases h1 : try_consume '"' (consume_whitespace st) with e | st2
      · rcases try_consume_err h1 with ⟨i, c, he, hm⟩ | he
        · rw [he]
          exact Or.inr (Or.inl ⟨i, c, rfl, (consume_whitespace_suffix st).subset hm⟩)
        · rw [he]
          exact Or.inr (Or.inr (Or.inl rfl))
      · have hs2 : st2 <:+ st :=
          (try_consume_ok_suffix h1).trans (consume_whitespace_suffix st)
        show Classified st
          (match parse_string st2 with
          | .error e => .error e
          | .ok ks =>
            match try_consume ':' (consume_whitespace ks.2) with
            | .error e => .error e
            | .ok st4 =>
              match parse_value fuel st4 with
              | .error e => .error e
              | .ok vs =>
                match ks.1.to_string with
                | .error _ => .error .panic
                | .ok key =>
                  if (consume ',' vs.2).1 = true then
                    parse_object_loop fuel (acc ++ [(key, vs.1)]) (consume ',' vs.2).2
                  else
                    match try_consume '\x7d' (consume ',' vs.2).2 with
                    | .error e => .error e
                    | .ok st5 => .ok (.Object (acc ++ [(key, vs.1)]), st5))
        rcases hps : parse_string st2 with e | ks
        · have hks := parse_string_cases st2
          rw [hps] at hks
          rcases hks with ⟨s, s', he, _⟩ | ⟨i, c, he, hm⟩ | he | he
          · exact absurd he (by simp)
          · rw [Except.error.inj he]
            exact Or.inr (Or.inl ⟨i, c, rfl, hs2.subset hm⟩)
          · rw [Except.error.inj he]
            exact Or.inr (Or.inr (Or.inl rfl))
          · rw [Except.error.inj he]
            exact Or.inr (Or.inr (Or.inr (Or.inr rfl)))
        · obtain ⟨kv, st2'⟩ := ks
          have hks := parse_string_cases st2
          rw [hps] at hks
          rcases hks with ⟨s, s', he, hsuf⟩ | ⟨i, c, he, _⟩ | he | he
          rotate_left
          · exact absurd he (by simp)
          · exact absurd he (by simp)
          · exact absurd he (by simp)
          rw [Except.ok.injEq, Prod.mk.injEq] at he
          obtain ⟨hkv, hst2'⟩ := he
          subst hkv
          have hs2' : st2' <:+ st := by
            rw [hst2']
            exact hsuf.trans hs2
          show Classified st
            (match try_consume ':' (consume_whitespace st2') with
            | .error e => .error e
            | .ok st4 =>
              match parse_value fuel st4 with
              | .error e => .error e
              | .ok vs =>
                if (consume ',' vs.2).1 = true then
                  parse_object_loop fuel (acc ++ [(s, vs.1)]) (consume ',' vs.2).2
                else
                  match try_consume '\x7d' (consume ',' vs.2).2 with
                  | .error e => .error e
                  | .ok st5 => .ok (.Object (acc ++ [(s, vs.1)]), st5))
          rcases h3 : try_consume ':' (consume_whitespace st2') with e | st4
          · rcases try_consume_err h3 with ⟨i, c, he, hm⟩ | he
            · rw [he]
              exact Or.inr (Or.inl ⟨i, c, rfl,
                (((consume_whitespace_suffix st2').trans hs2')).subset hm⟩)
            · rw [he]
              exact Or.inr (Or.inr (Or.inl rfl))
          · have hs4 : st4 <:+ st :=
              (try_consume_ok_suffix h3).trans
                ((consume_whitespace_suffix st2').trans hs2')
            show Classified st
              (match parse_value fuel st4 with
              | .error e => .error e
              | .ok vs =>
                if (consume ',' vs.2).1 = true then
                  parse_object_loop fuel (acc ++ [(s, vs.1)]) (consume ',' vs.2).2
                else
                  match try_consume '\x7d' (consume ',' vs.2).2 with
                  | .error e => .error e
                  | .ok st5 => .ok (.Object (acc ++ [(s, vs.1)]), st5))
            rcases hpv : parse_value fuel st4 with e | vs
            · have hcl := ihv st4
              rw [hpv] at hcl
              exact hcl.monoC hs4
            · obtain ⟨v0, st0⟩ := vs
              have hcl := ihv st4
              rw [hpv] at hcl
              have hs0 : st0 <:+ st := by
                rcases hcl with ⟨v, st', he, hsuf0⟩ | ⟨i, c, he, _⟩ | he | he | he
                · rw [Except.ok.injEq, Prod.mk.injEq] at he
                  rw [he.2]
                  exact hsuf0.trans hs4
                all_goals exact absurd he (by simp)
              show Classified st
                (if (consume ',' st0).1 = true then
                  parse_object_loop fuel (acc ++ [(s, v0)]) (consume ',' st0).2
                else
                  match try_consume '\x7d' (consume ',' st0).2 with
                  | .error e => .error e
                  | .ok st5 => .ok (.Object (acc ++ [(s, v0)]), st5))
              split
              · exact (ihol _ _).monoC ((consume_suffix _ _).trans hs0)
              · rcases htc : try_consume '\x7d' (consume ',' st0).2 with e2 | st5
                · rcases try_consume_err htc with ⟨i, c, he2, hm⟩ | he2
                  · rw [he2]
                    exact Or.inr (Or.inl ⟨i, c, rfl,
                      (((consume_suffix _ _).trans hs0)).subset hm⟩)
                  · rw [he2]
                    exact Or.inr (Or.inr (Or.inl rfl))
                · exact Or.inl ⟨_, st5, rfl,
                    (try_consume_ok_suffix htc).trans ((consume_suffix _ _).trans hs0)⟩

theorem parse_value_classified (fuel : Nat) (st : St) :
    Classified st (parse_value fuel st) :=
  (parsers_classified fuel).1 st

theorem Parser_parse_cases (fuel : Nat) (st : St) :
    (∃ v, Parser.parse fuel st = .ok v) ∨
    (∃ i c, Parser.parse fuel st = .error (.unexpectedToken i c) ∧ (i, c) ∈ st) ∨
    Parser.parse fuel st = .error .unexpectedEndOfInput ∨
    Parser.parse fuel st = .error .failedToParseNumber ∨
    Parser.parse fuel st = .error .outOfFuel := by
  simp only [Parser.parse]
  rcases hpv : parse_value fuel st with e | vs
  · have hcl := parse_value_classified fuel st
    rw [hpv] at hcl
    rcases hcl with ⟨v, st', he, _⟩ | ⟨i, c, he, hm⟩ | he | he | he
    · exact absurd he (by simp)
    · rw [Except.error.inj he]
      exact Or.inr (Or.inl ⟨i, c, rfl, hm⟩)
    · rw [Except.error.inj he]
      exact Or.inr (Or.inr (Or.inl rfl))
    · rw [Except.error.inj he]
      exact Or.inr (Or.inr (Or.inr (Or.inl rfl)))
    · rw [Except.error.inj he]
      exact Or.inr (Or.inr (Or.inr (Or.inr rfl)))
  · obtain ⟨v0, st0⟩ := vs
    have hcl := parse_value_classified fuel st
    rw [hpv] at hcl
    have hs : st0 <:+ st := by
      rcases hcl with ⟨v, st', he, hsuf⟩ | ⟨i, c, he, _⟩ | he | he | he
      · rw [Except.ok.injEq, Prod.mk.injEq] at he
        rw [he.2]
        exact hsuf
      all_goals exact absurd he (by simp)
    rcases st0 with _ | ⟨⟨i, c⟩, tl⟩
    · exact Or.inl ⟨v0, rfl⟩
    · exact Or.inr (Or.inl ⟨i, c, rfl, hs.subset (List.mem_cons_self _ _)⟩)

theorem charIndices_mem {i : Nat} {c : Char} {l : List Char} {k : Nat}
    (h : (i, c) ∈ charIndices k l) :
    ∃ pre post, l = pre ++ c :: post ∧ i = k + utf8Len pre := by
  induction l generalizing k with
  | nil => simp [charIndices] at h
  | cons d ds ih =>
    simp only [charIndices] at h
    rcases List.mem_cons.mp h with heq | hmem
    · rw [Prod.mk.injEq] at heq
      refine ⟨[], ds, ?_, ?_⟩
      · rw [heq.2]
        rfl
      · simp [utf8Len, heq.1]
    · obtain ⟨pre, post, hl, hi⟩ := ih hmem
      refine ⟨d :: pre, post, by rw [List.cons_append, ← hl], ?_⟩
      simp only [utf8Len]
      omega

theorem parse_value_final_ws {fuel : Nat} {st : St} {v : Value} {st2 : St}
    (h : parse_value fuel st = .ok (v, st2)) : ∃ st0, st2 = consume_whitespace st0 := by
  rcases fuel with _ | fuel
  · simp [parse_value] at h
  · rw [parse_value_succ] at h
    rcases hd : parse_value_dispatch fuel (consume_whitespace st) with e | vs
    · rw [hd] at h
      simp at h
    · rw [hd] at h
      have h2 : (Except.ok (vs.1, consume_whitespace vs.2) :
          Except ParseError (Value × St)) = .ok (v, st2) := h
      rw [Except.ok.injEq, Prod.mk.injEq] at h2
      exact ⟨vs.2, h2.2.symm⟩

/-! Soundness of the rendering relation: helper lemmas. -/

theorem utf8Len_append (a b : List Char) :
    utf8Len (a ++ b) = utf8Len a + utf8Len b := by
  induction a with
  | nil => simp [utf8Len]
  | cons c cs ih => simp [utf8Len, ih]; omega

theorem charIndices_append (a b : List Char) (k : Nat) :
    charIndices k (a ++ b) = charIndices k a ++ charIndices (k + utf8Len a) b := by
  induction a generalizing k with
  | nil => simp [charIndices, utf8Len]
  | cons c cs ih => simp [charIndices, ih, utf8Len, Nat.add_assoc]

theorem consume_whitespace_nonws {i : Nat} {c : Char} {tl : St}
    (h : isWs c = false) : consume_whitespace ((i, c) :: tl) = (i, c) :: tl := by
  simp [consume_whitespace, h]

theorem utf8Size_ascii {c : Char} (h : c.toNat ≤ 127) : c.utf8Size = 1 := by
  simp only [Char.utf8Size]
  rw [if_pos]
  exact h

theorem char_ne_of_toNat {a b : Char} (h : a.toNat ≠ b.toNat) : a ≠ b :=
  fun hh => h (by rw [hh])

theorem isDigit_of_bounds {d : Char} (h1 : '1' ≤ d) (h2 : d ≤ '9') :
    d.isDigit = true := by
  have a : 49 ≤ d.toNat := h1
  have b : d.toNat ≤ 57 := h2
  simp only [Char.isDigit, Bool.and_eq_true, decide_eq_true_eq]
  constructor
  · show 48 ≤ d.toNat
    omega
  · show d.toNat ≤ 57
    omega

theorem parse_literal_sound (values : List Char) (value : Value) :
    ∀ k rest, parse_literal values value (charIndices k (values ++ rest)) =
      .ok (value, charIndices (k + utf8Len values) rest) := by
  induction values with
  | nil =>
    intro k rest
    simp [parse_literal, utf8Len]
  | cons c cs ih =>
    intro k rest
    simp [charIndices, parse_literal, ih, utf8Len, Nat.add_assoc]

theorem collect_digits_sound (ds : List Char) (hds : ∀ c ∈ ds, c.isDigit) :
    ∀ k rest, (∀ j c tl, rest = (j, c) :: tl → c.isDigit = false) →
      collect_digits (charIndices k ds ++ rest) =
        (ds, rest) := by
  induction ds with
  | nil =>
    intro k rest hrest
    rcases rest with _ | ⟨⟨j, c⟩, tl⟩
    · rfl
    · simp [collect_digits, hrest j c tl rfl]
  | cons d dt ih =>
    intro k rest hrest
    have hih := ih (fun c hc => hds c (List.mem_cons_of_mem _ hc)) (k + d.utf8Size) rest hrest
    simp [charIndices, collect_digits, hds d (List.mem_cons_self _ _), hih]

theorem splitDot_nodot (l : List Char) (h : ∀ c ∈ l, c ≠ '.') :
    splitDot l = (l, none) := by
  induction l with
  | nil => rfl
  | cons c cs ih =>
    have hih := ih (fun x hx => h x (List.mem_cons_of_mem _ hx))
    simp [splitDot, h c (List.mem_cons_self _ _), hih]

theorem parseF64_digits (l : List Char) (hne : l ≠ []) (hds : ∀ c ∈ l, c.isDigit) :
    parseF64 l = some (false, (digitsToNat l : ℚ)) := by
  have hdot : splitDot l = (l, none) := by
    refine splitDot_nodot l (fun c hc => ?_)
    have := hds c hc
    simp [Char.isDigit] at this
    refine char_ne_of_toNat ?_
    have h1 : 48 ≤ c.toNat := this.1
    have h2 : c.toNat ≤ 57 := this.2
    show c.toNat ≠ 46
    omega
  rcases l with _ | ⟨c, t⟩
  · exact absurd rfl hne
  have hc := hds c (List.mem_cons_self _ _)
  simp [Char.isDigit] at hc
  have h1 : 48 ≤ c.toNat := hc.1
  have h2 : c.toNat ≤ 57 := hc.2
  have hcm : c ≠ '-' := char_ne_of_toNat (by show c.toNat ≠ 45; omega)
  have hcp : c ≠ '+' := char_ne_of_toNat (by show c.toNat ≠ 43; omega)
  have hsigned : stripSign (c :: t) = (false, c :: t) := by
    simp only [stripSign]
    split
    · rename_i t' heq
      rw [List.cons.injEq] at heq
      exact absurd heq.1 hcm
    · rename_i t' heq
      rw [List.cons.injEq] at heq
      exact absurd heq.1 hcp
    · rfl
  simp only [parseF64, hsigned, hdot]
  rw [if_pos]
  constructor
  · exact fun h => nomatch h
  · simp only [List.all_eq_true, decide_eq_true_eq]
    exact hds

theorem parse_string_go_sound (s : List Char) (hs : ∀ c ∈ s, c ≠ '"' ∧ c ≠ '\\') :
    ∀ acc k rest fuel, s.length + 1 ≤ fuel →
      parse_string_go fuel acc (charIndices k (s ++ '"' :: rest)) =
        .ok (.String (acc ++ s), charIndices (k + utf8Len s + 1) rest) := by
  induction s with
  | nil =>
    intro acc k rest fuel hfuel
    rcases fuel with _ | fuel
    · omega
    · simp [charIndices, parse_string_go, utf8Len, show ('"').utf8Size = 1 from rfl]
  | cons c ct ih =>
    intro acc k rest fuel hfuel
    rcases fuel with _ | fuel
    · simp at hfuel
    · obtain ⟨hc1, hc2⟩ := hs c (List.mem_cons_self _ _)
      have hih := ih (fun x hx => hs x (List.mem_cons_of_mem _ hx)) (acc ++ [c])
        (k + c.utf8Size) rest fuel (by simp at hfuel ⊢; omega)
      simp [charIndices, parse_string_go, hc1, hc2, hih, utf8Len, Nat.add_assoc]

theorem parse_string_sound (s : List Char) (hs : ∀ c ∈ s, c ≠ '"' ∧ c ≠ '\\')
    (k : Nat) (rest : List Char) :
    parse_string (charIndices k (s ++ '"' :: rest)) =
      .ok (.String s, charIndices (k + utf8Len s + 1) rest) := by
  have hlen : s.length + 1 ≤ (charIndices k (s ++ '"' :: rest)).length + 1 := by
    rw [charIndices_length]
    simp
  exact parse_string_go_sound s hs [] k rest _ hlen

theorem JTxt_head {v : Value} {t : List Char} (h : JTxt v t) :
    ∃ c t', t = c :: t' ∧ isWs c = false ∧ c ≠ ']' ∧ c ≠ '\x7d' := by
  cases h with
  | null => exact ⟨'n', _, rfl, by decide, by decide, by decide⟩
  | tru => exact ⟨'t', _, rfl, by decide, by decide, by decide⟩
  | fls => exact ⟨'f', _, rfl, by decide, by decide, by decide⟩
  | str s hs => exact ⟨'"', _, rfl, by decide, by decide, by decide⟩
  | zero => exact ⟨'0', _, rfl, by decide, by decide, by decide⟩
  | num d ds h1 h2 hds =>
    have a : 49 ≤ d.toNat := h1
    have b : d.toNat ≤ 57 := h2
    refine ⟨d, ds, rfl, ?_, ?_, ?_⟩
    · have w1 : d ≠ ' ' := char_ne_of_toNat (by show d.toNat ≠ 32; omega)
      have w2 : d ≠ '\t' := char_ne_of_toNat (by show d.toNat ≠ 9; omega)
      have w3 : d ≠ '\r' := char_ne_of_toNat (by show d.toNat ≠ 13; omega)
      have w4 : d ≠ '\n' := char_ne_of_toNat (by show d.toNat ≠ 10; omega)
      simp [isWs, w1, w2, w3, w4]
    · exact char_ne_of_toNat (by show d.toNat ≠ 93; omega)
    · exact char_ne_of_toNat (by show d.toNat ≠ 125; omega)
  | arrNil => exact ⟨'[', _, rfl, by decide, by decide, by decide⟩
  | arr items hne hv => exact ⟨'[', _, rfl, by decide, by decide, by decide⟩
  | objNil => exact ⟨'\x7b', _, rfl, by decide, by decide, by decide⟩
  | obj items hne hk hv => exact ⟨'\x7b', _, rfl, by decide, by decide, by decide⟩

theorem numSafe_elim {c0 : Char} {rest0 : List Char} (h : numSafe (c0 :: rest0)) :
    c0.isDigit = false ∧ c0 ≠ '.' ∧ c0 ≠ 'e' ∧ c0 ≠ 'E' := by
  have hn : ¬(c0.isDigit = true ∨ c0 = '.' ∨ c0 = 'e' ∨ c0 = 'E') := h
  refine ⟨?_, fun h => hn (Or.inr (Or.inl h)),
    fun h => hn (Or.inr (Or.inr (Or.inl h))),
    fun h => hn (Or.inr (Or.inr (Or.inr h)))⟩
  cases hdig : c0.isDigit
  · rfl
  · exact absurd (Or.inl hdig) hn

theorem parse_number_zero_sound (k : Nat) (rest : List Char) (hrest : numSafe rest) :
    parse_number '0' (charIndices k rest) = .ok (.Number false 0, charIndices k rest) := by
  rcases rest with _ | ⟨c0, rest0⟩
  · rfl
  · obtain ⟨_, h1, h2, h3⟩ := numSafe_elim hrest
    simp [parse_number, charIndices, h1, h2, h3]

theorem parse_number_digits_sound (d : Char) (ds : List Char)
    (h1 : '1' ≤ d) (h2 : d ≤ '9') (hds : ∀ c ∈ ds, c.isDigit)
    (k : Nat) (rest : List Char) (hrest : numSafe rest) :
    parse_number d (charIndices k (ds ++ rest)) =
      .ok (.Number false (digitsToNat (d :: ds) : ℚ),
        charIndices (k + utf8Len ds) rest) := by
  have ha : 49 ≤ d.toNat := h1
  have hb : d.toNat ≤ 57 := h2
  have h0 : d ≠ '0' := char_ne_of_toNat (by show d.toNat ≠ 48; omega)
  have hm : d ≠ '-' := char_ne_of_toNat (by show d.toNat ≠ 45; omega)
  have hcd : collect_digits (charIndices k ds ++ charIndices (k + utf8Len ds) rest) =
      (ds, charIndices (k + utf8Len ds) rest) := by
    apply collect_digits_sound ds hds k
    intro j c tl hrtl
    rcases rest with _ | ⟨c0, rest0⟩
    · simp [charIndices] at hrtl
    · simp only [charIndices, List.cons.injEq, Prod.mk.injEq] at hrtl
      rw [← hrtl.1.2]
      exact (numSafe_elim hrest).1
  have hdot : consume '.' (charIndices (k + utf8Len ds) rest) =
      (false, charIndices (k + utf8Len ds) rest) := by
    rcases rest with _ | ⟨c0, rest0⟩
    · rfl
    · obtain ⟨_, hd1, _, _⟩ := numSafe_elim hrest
      simp [charIndices, consume, hd1]
  have hexp : parse_exponent (charIndices (k + utf8Len ds) rest) =
      .ok (charIndices (k + utf8Len ds) rest) := by
    rcases rest with _ | ⟨c0, rest0⟩
    · rfl
    · obtain ⟨_, _, he1, he2⟩ := numSafe_elim hrest
      simp [charIndices, parse_exponent, he1, he2]
  have hpf : parseF64 (d :: ds) = some (false, (digitsToNat (d :: ds) : ℚ)) := by
    refine parseF64_digits (d :: ds) (fun h => nomatch h) (fun c hc => ?_)
    rcases List.mem_cons.mp hc with rfl | hc2
    · exact isDigit_of_bounds h1 h2
    · exact hds c hc2
  rw [charIndices_append]
  simp [parse_number, h0, hm, if_pos (And.intro h1 h2), hcd,
    parse_number_tail, hdot, parse_number_finish, hexp, hpf]

theorem numSafe_cons {c : Char} {l : List Char}
    (h : ¬(c.isDigit = true ∨ c = '.' ∨ c = 'e' ∨ c = 'E')) : numSafe (c :: l) := h

theorem arr_loop_sound (its : List (Value × List Char))
    (hprop : ∀ p ∈ its, ∀ k rest fuel, numSafe rest → 3 * p.2.length + 1 ≤ fuel →
      parse_value fuel (charIndices k (p.2 ++ rest)) =
        .ok (p.1, consume_whitespace (charIndices (k + utf8Len p.2) rest))) :
    its ≠ [] →
    ∀ acc k rest fuel, 3 * (sepComma (its.map Prod.snd)).length + 2 ≤ fuel →
      parse_array_loop fuel acc (charIndices k (sepComma (its.map Prod.snd) ++ ']' :: rest)) =
        .ok (.Array (acc ++ its.map Prod.fst),
          charIndices (k + utf8Len (sepComma (its.map Prod.snd)) + 1) rest) := by
  induction its with
  | nil => intro hne; exact absurd rfl hne
  | cons p its' ihl =>
    intro _ acc k rest fuel hfuel
    have hp := hprop p (List.mem_cons_self _ _)
    rcases fuel with _ | f
    · omega
    rcases its' with _ | ⟨q, its''⟩
    · simp only [List.map, sepComma] at hfuel ⊢
      have hv := hp k (']' :: rest) f (numSafe_cons (by decide)) (by omega)
      simp only [parse_array_loop]
      rw [hv]
      simp [charIndices, consume_whitespace, isWs, consume, try_consume, Char.utf8Size]
    · have hsep : sepComma (((p :: q :: its'').map Prod.snd)) =
        p.2 ++ ',' :: sepComma ((q :: its'').map Prod.snd) := rfl
      rw [hsep] at hfuel ⊢
      have hassoc : (p.2 ++ ',' :: sepComma ((q :: its'').map Prod.snd)) ++ ']' :: rest =
          p.2 ++ ',' :: (sepComma ((q :: its'').map Prod.snd) ++ ']' :: rest) := by
        simp
      rw [hassoc]
      have hlen : (p.2 ++ ',' :: sepComma ((q :: its'').map Prod.snd)).length =
          p.2.length + 1 + (sepComma ((q :: its'').map Prod.snd)).length := by
        simp
        omega
      rw [hlen] at hfuel
      have hv := hp k (',' :: (sepComma ((q :: its'').map Prod.snd) ++ ']' :: rest)) f
        (numSafe_cons (by decide)) (by omega)
      have hcw : consume_whitespace (charIndices (k + utf8Len p.2)
          (',' :: (sepComma ((q :: its'').map Prod.snd) ++ ']' :: rest))) =
          (k + utf8Len p.2, ',') :: charIndices (k + utf8Len p.2 + 1)
            (sepComma ((q :: its'').map Prod.snd) ++ ']' :: rest) := by
        simp [charIndices, consume_whitespace, isWs, Char.utf8Size]
      have hihl := ihl (fun r hr => hprop r (List.mem_cons_of_mem _ hr))
        (List.cons_ne_nil _ _) (acc ++ [p.1]) (k + utf8Len p.2 + 1) rest f (by omega)
      have hstep : parse_array_loop (f + 1) acc
          (charIndices k (p.2 ++ ',' :: (sepComma ((q :: its'').map Prod.snd) ++ ']' :: rest))) =
          parse_array_loop f (acc ++ [p.1])
            (charIndices (k + utf8Len p.2 + 1)
              (sepComma ((q :: its'').map Prod.snd) ++ ']' :: rest)) := by
        simp only [parse_array_loop]
        rw [hv, hcw]
        simp [consume]
      rw [hstep, hihl]
      have e1 : acc ++ [p.1] ++ (q :: its'').map Prod.fst =
          acc ++ (p :: q :: its'').map Prod.fst := by simp
      have e2 : k + utf8Len p.2 + 1 + utf8Len (sepComma ((q :: its'').map Prod.snd)) + 1 =
          k + utf8Len (p.2 ++ ',' :: sepComma ((q :: its'').map Prod.snd)) + 1 := by
        rw [utf8Len_append]
        simp [utf8Len, Char.utf8Size]
        omega
      rw [e1, e2]

theorem obj_loop_sound (its : List (List Char × Value × List Char))
    (hkeys : ∀ p ∈ its, ∀ c ∈ p.1, c ≠ '"' ∧ c ≠ '\\')
    (hprop : ∀ p ∈ its, ∀ k rest fuel, numSafe rest → 3 * p.2.2.length + 1 ≤ fuel →
      parse_value fuel (charIndices k (p.2.2 ++ rest)) =
        .ok (p.2.1, consume_whitespace (charIndices (k + utf8Len p.2.2) rest))) :
    its ≠ [] →
    ∀ acc k rest fuel,
      3 * (sepComma (its.map fun p => '"' :: (p.1 ++ '"' :: ':' :: p.2.2))).length + 2 ≤ fuel →
      parse_object_loop fuel acc
        (charIndices k (sepComma (its.map fun p => '"' :: (p.1 ++ '"' :: ':' :: p.2.2)) ++
          '\x7d' :: rest)) =
        .ok (.Object (acc ++ its.map fun p => (p.1, p.2.1)),
          charIndices (k + utf8Len (sepComma (its.map fun p => '"' :: (p.1 ++ '"' :: ':' :: p.2.2))) + 1)
            rest) := by
  induction its with
  | nil => intro hne; exact absurd rfl hne
  | cons p its' ihl =>
    intro _ acc k rest fuel hfuel
    have hk := hkeys p (List.mem_cons_self _ _)
    have hp := hprop p (List.mem_cons_self _ _)
    rcases fuel with _ | f
    · omega
    rcases its' with _ | ⟨q, its''⟩
    · simp only [List.map, sepComma] at hfuel ⊢
      have hlen : ('"' :: (p.1 ++ '"' :: ':' :: p.2.2)).length =
          p.1.length + p.2.2.length + 3 := by
        simp
        omega
      rw [hlen] at hfuel
      have hps := parse_string_sound p.1 hk (k + 1) (':' :: (p.2.2 ++ '\x7d' :: rest))
      have hv := hp (k + 1 + utf8Len p.1 + 1 + 1) ('\x7d' :: rest) f
        (numSafe_cons (by decide)) (by omega)
      simp [charIndices, utf8Len, utf8Len_append, Char.utf8Size, Nat.add_assoc,
        List.append_assoc] at hps hv
      simp [parse_object_loop, charIndices, consume_whitespace, isWs, try_consume,
        consume, Value.to_string, hps, hv, utf8Len, utf8Len_append, Char.utf8Size,
        List.append_assoc, Nat.add_assoc]
      congr 1
      omega
    · have hsep : sepComma (((p :: q :: its'').map fun p => '"' :: (p.1 ++ '"' :: ':' :: p.2.2))) =
        ('"' :: (p.1 ++ '"' :: ':' :: p.2.2)) ++
          ',' :: sepComma ((q :: its'').map fun p => '"' :: (p.1 ++ '"' :: ':' :: p.2.2)) := rfl
      rw [hsep] at hfuel ⊢
      have hlen : (('"' :: (p.1 ++ '"' :: ':' :: p.2.2)) ++
          ',' :: sepComma ((q :: its'').map fun p => '"' :: (p.1 ++ '"' :: ':' :: p.2.2))).length =
          p.1.length + p.2.2.length + 4 +
            (sepComma ((q :: its'').map fun p => '"' :: (p.1 ++ '"' :: ':' :: p.2.2))).length := by
        simp
        omega
      rw [hlen] at hfuel
      have hps := parse_string_sound p.1 hk (k + 1)
        (':' :: (p.2.2 ++ ',' ::
          (sepComma ((q :: its'').map fun p => '"' :: (p.1 ++ '"' :: ':' :: p.2.2)) ++
            '\x7d' :: rest)))
      have hv := hp (k + 1 + utf8Len p.1 + 1 + 1)
        (',' :: (sepComma ((q :: its'').map fun p => '"' :: (p.1 ++ '"' :: ':' :: p.2.2)) ++
          '\x7d' :: rest)) f
        (numSafe_cons (by decide)) (by omega)
      have hihl := ihl (fun r hr => hkeys r (List.mem_cons_of_mem _ hr))
        (fun r hr => hprop r (List.mem_cons_of_mem _ hr))
        (List.cons_ne_nil _ _) (acc ++ [(p.1, p.2.1)])
        (k + 1 + utf8Len p.1 + 1 + 1 + utf8Len p.2.2 + 1) rest f (by omega)
      simp [charIndices, utf8Len, utf8Len_append, Char.utf8Size, Nat.add_assoc,
        List.append_assoc] at hps hv hihl
      simp [parse_object_loop, charIndices, consume_whitespace, isWs, try_consume,
        consume, Value.to_string, hps, hv, hihl, utf8Len, utf8Len_append, Char.utf8Size,
        List.append_assoc, Nat.add_assoc]
      congr 1
      omega

theorem sepComma_cons₂ (a b : List Char) (l : List (List Char)) :
    sepComma (a :: b :: l) = a ++ ',' :: sepComma (b :: l) := rfl

theorem isWs_false_of_ge {d : Char} (h : 33 ≤ d.toNat) : isWs d = false := by
  have w1 : d ≠ ' ' := char_ne_of_toNat (by show d.toNat ≠ 32; omega)
  have w2 : d ≠ '\t' := char_ne_of_toNat (by show d.toNat ≠ 9; omega)
  have w3 : d ≠ '\r' := char_ne_of_toNat (by show d.toNat ≠ 13; omega)
  have w4 : d ≠ '\n' := char_ne_of_toNat (by show d.toNat ≠ 10; omega)
  simp [isWs, w1, w2, w3, w4]

theorem jtxt_parse_value {v : Value} {txt : List Char} (h : JTxt v txt) :
    ∀ k rest fuel, numSafe rest → 3 * txt.length + 1 ≤ fuel →
      parse_value fuel (charIndices k (txt ++ rest)) =
        .ok (v, consume_whitespace (charIndices (k + utf8Len txt) rest)) := by
  induction h with
  | null =>
    intro k rest fuel hrest hfuel
    rcases fuel with _ | f
    · omega
    rw [parse_value_succ]
    simp [charIndices, consume_whitespace, isWs, parse_value_dispatch, parse_literal,
      utf8Len, Char.utf8Size, Nat.add_assoc]
  | tru =>
    intro k rest fuel hrest hfuel
    rcases fuel with _ | f
    · omega
    rw [parse_value_succ]
    simp [charIndices, consume_whitespace, isWs, parse_value_dispatch, parse_literal,
      utf8Len, Char.utf8Size, Nat.add_assoc]
  | fls =>
    intro k rest fuel hrest hfuel
    rcases fuel with _ | f
    · omega
    rw [parse_value_succ]
    simp [charIndices, consume_whitespace, isWs, parse_value_dispatch, parse_literal,
      utf8Len, Char.utf8Size, Nat.add_assoc]
  | str s hs =>
    intro k rest fuel hrest hfuel
    rcases fuel with _ | f
    · omega
    rw [parse_value_succ]
    have hps := parse_string_sound s hs (k + 1) rest
    simp [charIndices, utf8Len, utf8Len_append, Char.utf8Size, Nat.add_assoc,
      List.append_assoc] at hps
    simp [charIndices, consume_whitespace, isWs, parse_value_dispatch, hps,
      utf8Len, utf8Len_append, Char.utf8Size, Nat.add_assoc, List.append_assoc]
  | zero =>
    intro k rest fuel hrest hfuel
    rcases fuel with _ | f
    · omega
    rw [parse_value_succ]
    have hz := parse_number_zero_sound (k + 1) rest hrest
    simp [charIndices, consume_whitespace, isWs, parse_value_dispatch, hz,
      utf8Len, Char.utf8Size, Nat.add_assoc]
  | num d ds h1 h2 hds =>
    intro k rest fuel hrest hfuel
    rcases fuel with _ | f
    · omega
    have ha : 49 ≤ d.toNat := h1
    have hb : d.toNat ≤ 57 := h2
    have hn1 : d ≠ 'n' := char_ne_of_toNat (by show d.toNat ≠ 110; omega)
    have hn2 : d ≠ 't' := char_ne_of_toNat (by show d.toNat ≠ 116; omega)
    have hn3 : d ≠ 'f' := char_ne_of_toNat (by show d.toNat ≠ 102; omega)
    have hn4 : d ≠ '"' := char_ne_of_toNat (by show d.toNat ≠ 34; omega)
    have hn5 : d ≠ '[' := char_ne_of_toNat (by show d.toNat ≠ 91; omega)
    have hn6 : d ≠ '\x7b' := char_ne_of_toNat (by show d.toNat ≠ 123; omega)
    have hdig := isDigit_of_bounds h1 h2
    have hwsd : isWs d = false := isWs_false_of_ge (by omega)
    have hsz : d.utf8Size = 1 := utf8Size_ascii (by omega)
    rw [parse_value_succ]
    have hnum := parse_number_digits_sound d ds h1 h2 hds (k + 1) rest hrest
    simp [charIndices, utf8Len, Nat.add_assoc] at hnum
    simp [charIndices, consume_whitespace, hwsd, parse_value_dispatch, hn1, hn2, hn3,
      hn4, hn5, hn6, hdig, hsz, hnum, utf8Len, Nat.add_assoc]
  | arrNil =>
    intro k rest fuel hrest hfuel
    simp only [List.length_cons, List.length_nil] at hfuel
    rcases fuel with _ | f
    · omega
    rcases f with _ | g
    · omega
    rw [parse_value_succ]
    simp [charIndices, consume_whitespace, isWs, parse_value_dispatch, parse_array,
      consume, utf8Len, Char.utf8Size, Nat.add_assoc]
  | objNil =>
    intro k rest fuel hrest hfuel
    simp only [List.length_cons, List.length_nil] at hfuel
    rcases fuel with _ | f
    · omega
    rcases f with _ | g
    · omega
    rw [parse_value_succ]
    simp [charIndices, consume_whitespace, isWs, parse_value_dispatch, parse_object,
      consume, utf8Len, Char.utf8Size, Nat.add_assoc]
  | arr items hne hjts ih =>
    intro k rest fuel hrest hfuel
    have hlen : ('[' :: (sepComma (items.map Prod.snd) ++ [']'])).length =
        (sepComma (items.map Prod.snd)).length + 2 := by simp
    rw [hlen] at hfuel
    rcases fuel with _ | f
    · omega
    rcases f with _ | g
    · omega
    rcases items with _ | ⟨p0, its'⟩
    · exact absurd rfl hne
    obtain ⟨c0, t0, hp02, hws0, hbr0, _⟩ := JTxt_head (hjts p0 (List.mem_cons_self _ _))
    rw [parse_value_succ]
    have e1 : charIndices k (('[' :: (sepComma ((p0 :: its').map Prod.snd) ++ [']'])) ++ rest) =
        (k, '[') :: charIndices (k + 1)
          (sepComma ((p0 :: its').map Prod.snd) ++ ']' :: rest) := by
      simp [charIndices, Char.utf8Size, List.append_assoc]
    rw [e1, consume_whitespace_nonws (by decide)]
    have e2 : parse_value_dispatch (g + 1)
        ((k, '[') :: charIndices (k + 1) (sepComma ((p0 :: its').map Prod.snd) ++ ']' :: rest)) =
        parse_array (g + 1)
          (charIndices (k + 1) (sepComma ((p0 :: its').map Prod.snd) ++ ']' :: rest)) := by
      simp [parse_value_dispatch]
    rw [e2]
    have hsep0 : ∃ tail, sepComma ((p0 :: its').map Prod.snd) ++ ']' :: rest = c0 :: tail := by
      rcases its' with _ | ⟨q, its''⟩
      · exact ⟨t0 ++ ']' :: rest, by simp [sepComma, hp02]⟩
      · exact ⟨t0 ++ ',' :: (sepComma ((q :: its'').map Prod.snd) ++ ']' :: rest),
          by simp [sepComma_cons₂, hp02, List.append_assoc]⟩
    obtain ⟨tail, htail⟩ := hsep0
    have e3 : parse_array (g + 1)
        (charIndices (k + 1) (sepComma ((p0 :: its').map Prod.snd) ++ ']' :: rest)) =
        parse_array_loop g []
          (charIndices (k + 1) (sepComma ((p0 :: its').map Prod.snd) ++ ']' :: rest)) := by
      rw [htail]
      simp [parse_array, charIndices, consume_whitespace_nonws hws0, consume, hbr0]
    rw [e3]
    have hloop := arr_loop_sound (p0 :: its') ih (List.cons_ne_nil _ _)
      [] (k + 1) rest g (by omega)
    rw [hloop]
    simp [utf8Len, utf8Len_append, Char.utf8Size, Nat.add_assoc]
  | obj items hne hkeys hjts ih =>
    intro k rest fuel hrest hfuel
    have hlen : ('\x7b' :: (sepComma (items.map fun p => '"' :: (p.1 ++ '"' :: ':' :: p.2.2)) ++
        ['\x7d'])).length =
        (sepComma (items.map fun p => '"' :: (p.1 ++ '"' :: ':' :: p.2.2))).length + 2 := by simp
    rw [hlen] at hfuel
    rcases fuel with _ | f
    · omega
    rcases f with _ | g
    · omega
    rcases items with _ | ⟨p0, its'⟩
    · exact absurd rfl hne
    rw [parse_value_succ]
    have e1 : charIndices k (('\x7b' :: (sepComma ((p0 :: its').map fun p =>
        '"' :: (p.1 ++ '"' :: ':' :: p.2.2)) ++ ['\x7d'])) ++ rest) =
        (k, '\x7b') :: charIndices (k + 1)
          (sepComma ((p0 :: its').map fun p => '"' :: (p.1 ++ '"' :: ':' :: p.2.2)) ++
            '\x7d' :: rest) := by
      simp [charIndices, Char.utf8Size, List.append_assoc]
    rw [e1, consume_whitespace_nonws (by decide)]
    have e2 : parse_value_dispatch (g + 1)
        ((k, '\x7b') :: charIndices (k + 1)
          (sepComma ((p0 :: its').map fun p => '"' :: (p.1 ++ '"' :: ':' :: p.2.2)) ++
            '\x7d' :: rest)) =
        parse_object (g + 1)
          (charIndices (k + 1)
            (sepComma ((p0 :: its').map fun p => '"' :: (p.1 ++ '"' :: ':' :: p.2.2)) ++
              '\x7d' :: rest)) := by
      simp [parse_value_dispatch]
    rw [e2]
    have hsep0 : ∃ tail, sepComma ((p0 :: its').map fun p =>
        '"' :: (p.1 ++ '"' :: ':' :: p.2.2)) ++ '\x7d' :: rest = '"' :: tail := by
      rcases its' with _ | ⟨q, its''⟩
      · exact ⟨(p0.1 ++ '"' :: ':' :: p0.2.2) ++ '\x7d' :: rest, by simp [sepComma]⟩
      · exact ⟨(p0.1 ++ '"' :: ':' :: p0.2.2) ++
          ',' :: (sepComma ((q :: its'').map fun p => '"' :: (p.1 ++ '"' :: ':' :: p.2.2)) ++
            '\x7d' :: rest), by simp [sepComma_cons₂, List.append_assoc]⟩
    obtain ⟨tail, htail⟩ := hsep0
    have e3 : parse_object (g + 1)
        (charIndices (k + 1)
          (sepComma ((p0 :: its').map fun p => '"' :: (p.1 ++ '"' :: ':' :: p.2.2)) ++
            '\x7d' :: rest)) =
        parse_object_loop g []
          (charIndices (k + 1)
            (sepComma ((p0 :: its').map fun p => '"' :: (p.1 ++ '"' :: ':' :: p.2.2)) ++
              '\x7d' :: rest)) := by
      rw [htail]
      simp [parse_object, charIndices, consume_whitespace, isWs, consume]
    rw [e3]
    have hloop := obj_loop_sound (p0 :: its') hkeys ih (List.cons_ne_nil _ _)
      [] (k + 1) rest g (by omega)
    rw [hloop]
    simp [utf8Len, utf8Len_append, Char.utf8Size, Nat.add_assoc]

/-! Claim theorems. -/

/-- C1 (code bug): the source collects the exponent digits into the buffer
pow but never appends them to the buffer num that is handed to the float
conversion, so parsing 1e2 yields Number 1.0, not the Number 100.0 the claim
requires. -/
theorem exponent_is_discarded :
    parse ['1', 'e', '2'] = .ok (.Number false 1) ∧
      parse ['1', 'e', '2'] ≠ .ok (.Number false 100) := by
  refine ⟨rfl, fun h => ?_⟩
  have h1 := Except.ok.inj ((rfl :
    parse ['1', 'e', '2'] = .ok (.Number false 1)).symm.trans h)
  rw [Value.Number.injEq] at h1
  exact absurd h1.2 (by norm_num [show digitsToNat ['1'] = 1 from rfl])

/-- C2 counterexample: on the input with the non-ASCII character é before
the offending trailing 1, the reported position is the byte offset 4, not
the character offset 3 the claim requires. -/
theorem position_is_byte_offset_cx :
    parse ['"', 'é', '"', '1'] = .error (.unexpectedToken 4 '1') ∧
      parse ['"', 'é', '"', '1'] ≠ .error (.unexpectedToken 3 '1') := by
  refine ⟨rfl, fun h => ?_⟩
  have h1 := Except.error.inj ((rfl :
    parse ['"', 'é', '"', '1'] = .error (.unexpectedToken 4 '1')).symm.trans h)
  exact absurd h1 (by decide)

/-- C2 (amended): whenever parse fails with an unexpected-token error, the
reported position is the UTF-8 byte offset of the offending character from
the start of the input (which equals the character offset only when every
preceding character is ASCII), and for trailing garbage after a valid value
the error points at the first character remaining after the value, a
non-whitespace character, again at its byte offset. -/
theorem positions_are_byte_offsets :
    (∀ s i c, parse s = .error (.unexpectedToken i c) →
      ∃ pre post, s = pre ++ c :: post ∧ i = utf8Len pre) ∧
    (∀ fuel st v i c tl, parse_value fuel st = .ok (v, (i, c) :: tl) →
      Parser.parse fuel st = .error (.unexpectedToken i c) ∧ isWs c = false) := by
  constructor
  · intro s i c h
    have h' : Parser.parse (3 * s.length + 3) (charIndices 0 s) =
        .error (.unexpectedToken i c) := h
    have hm : (i, c) ∈ charIndices 0 s := by
      rcases Parser_parse_cases (3 * s.length + 3) (charIndices 0 s) with
        ⟨v, he⟩ | ⟨i', c', he, hm'⟩ | he | he | he
      · exact absurd (he.symm.trans h') (by simp)
      · have h2 := Except.error.inj (h'.symm.trans he)
        rw [ParseError.unexpectedToken.injEq] at h2
        rw [h2.1, h2.2]
        exact hm'
      all_goals
        have h2 := Except.error.inj (h'.symm.trans he)
        exact absurd h2 (by simp)
    obtain ⟨pre, post, hl, hi⟩ := charIndices_mem hm
    exact ⟨pre, post, hl, by omega⟩
  · intro fuel st v i c tl h
    constructor
    · show Parser.parse fuel st = _
      simp only [Parser.parse, h]
    · obtain ⟨st0, hst0⟩ := parse_value_final_ws h
      exact consume_whitespace_head hst0.symm

/-- Witness for C2 at the concrete ASCII input consisting of an empty array
followed by a trailing 1. -/
theorem positions_are_byte_offsets_witness :
    (∃ pre post, (['[', ']', '1'] : List Char) = pre ++ '1' :: post ∧
      2 = utf8Len pre) ∧
    (Parser.parse 12 (charIndices 0 ['[', ']', '1']) =
      .error (.unexpectedToken 2 '1') ∧ isWs '1' = false) :=
  ⟨positions_are_byte_offsets.1 ['[', ']', '1'] 2 '1' rfl,
    positions_are_byte_offsets.2 12 (charIndices 0 ['[', ']', '1'])
      (.Array []) 2 '1' [] rfl⟩

/-- C9: a successful parse_string always returns a String-variant value, so
the unwrap of the parsed object key never panics: the whole parser never
returns the panic outcome on any input. -/
theorem string_keys_never_panic :
    (∀ st v st', parse_string st = .ok (v, st') → ∃ s, v = .String s) ∧
    (∀ s, parse s ≠ .error .panic) := by
  refine ⟨fun st v st' h => parse_string_shape h, ?_⟩
  intro s h
  have h' : Parser.parse (3 * s.length + 3) (charIndices 0 s) =
      .error .panic := h
  rcases Parser_parse_cases (3 * s.length + 3) (charIndices 0 s) with
    ⟨v, he⟩ | ⟨i', c', he, _⟩ | he | he | he
  · exact absurd (he.symm.trans h') (by simp)
  all_goals
    have h2 := Except.error.inj (he.symm.trans h')
    exact absurd h2 (by simp)

/-- Witness for C9: a one-character string body returns a String value, and
parsing the null literal does not panic. -/
theorem string_keys_never_panic_witness :
    (∃ s, Value.String ['a'] = Value.String s) ∧
    parse ['n', 'u', 'l', 'l'] ≠ .error .panic :=
  ⟨string_keys_never_panic.1 [(0, 'a'), (1, '"')] (Value.String ['a']) [] rfl,
    string_keys_never_panic.2 ['n', 'u', 'l', 'l']⟩

/-- C8: parsing a rendered document reproduces exactly the value it
renders: array elements and object members are parsed in the left-to-right
order of the source text, and duplicate object keys are never detected,
merged, or dropped -- every occurrence is retained as a separate pair in
source order, because the JTxt relation puts no condition whatsoever on the
keys of distinct members. -/
theorem order_and_duplicates_preserved :
    ∀ v txt, JTxt v txt → parse txt = .ok v := by
  intro v txt h
  have h2 := jtxt_parse_value h 0 [] (3 * txt.length + 3) trivial (by omega)
  rw [List.append_nil] at h2
  show Parser.parse (3 * txt.length + 3) (charIndices 0 txt) = .ok v
  simp [Parser.parse, h2, charIndices, consume_whitespace]

/-- Witness for C8: an object with the duplicate key a keeps both pairs in
source order, and a two-element array keeps its element order. -/
theorem order_and_duplicates_preserved_witness :
    parse ['\x7b', '"', 'a', '"', ':', 'n', 'u', 'l', 'l', ',',
        '"', 'a', '"', ':', 't', 'r', 'u', 'e', '\x7d'] =
      .ok (.Object [(['a'], .Null), (['a'], .True)]) ∧
    parse ['[', 'n', 'u', 'l', 'l', ',', 't', 'r', 'u', 'e', ']'] =
      .ok (.Array [.Null, .True]) := by
  constructor
  · exact order_and_duplicates_preserved _ _
      (JTxt.obj [(['a'], .Null, ['n', 'u', 'l', 'l']), (['a'], .True, ['t', 'r', 'u', 'e'])]
        (List.cons_ne_nil _ _)
        (by
          intro p hp
          rcases List.mem_cons.mp hp with rfl | hp2
          · decide
          rcases List.mem_cons.mp hp2 with rfl | hp3
          · decide
          · exact absurd hp3 (List.not_mem_nil _))
        (by
          intro p hp
          rcases List.mem_cons.mp hp with rfl | hp2
          · exact JTxt.null
          rcases List.mem_cons.mp hp2 with rfl | hp3
          · exact JTxt.tru
          · exact absurd hp3 (List.not_mem_nil _)))
  · exact order_and_duplicates_preserved _ _
      (JTxt.arr [(.Null, ['n', 'u', 'l', 'l']), (.True, ['t', 'r', 'u', 'e'])]
        (List.cons_ne_nil _ _)
        (by
          intro p hp
          rcases List.mem_cons.mp hp with rfl | hp2
          · exact JTxt.null
          rcases List.mem_cons.mp hp2 with rfl | hp3
          · exact JTxt.tru
          · exact absurd hp3 (List.not_mem_nil _)))

/-- C3: a trailing comma in an array or object fails at the closing
bracket/brace (positions 3 and 10), and a leading comma in an array fails
at the comma (position 1). -/
theorem comma_rejection :
    parse ['[', '1', ',', ']'] = .error (.unexpectedToken 3 ']') ∧
      parse ['\x7b', '"', 'c', '"', ':', 't', 'r', 'u', 'e', ',', '\x7d'] =
        .error (.unexpectedToken 10 '\x7d') ∧
      parse ['[', ',', ']'] = .error (.unexpectedToken 1 ',') :=
  ⟨rfl, rfl, rfl⟩

/-- C10: with a leading 0 followed by an exponent the 0 is never pushed to
the conversion buffer, so 0e1 and 0E1 produce the internal conversion error
Failed to parse number rather than a Number or a syntax error. -/
theorem zero_exponent_conversion_error :
    parse ['0', 'e', '1'] = .error .failedToParseNumber ∧
      parse ['0', 'E', '1'] = .error .failedToParseNumber :=
  ⟨rfl, rfl⟩

/-- C4: the unicode escape u0041 decodes to A; the escapes n, t, r, quote,
backslash and slash decode to their single-character equivalents; the
escapes b and f are rejected with an unexpected token at the escape
character, and so is every other unrecognized escape character. -/
theorem escape_decoding :
    parse ['"', '\\', 'u', '0', '0', '4', '1', '"'] = .ok (.String ['A']) ∧
      parse ['"', '\\', 'n', '"'] = .ok (.String ['\n']) ∧
      parse ['"', '\\', 't', '"'] = .ok (.String ['\t']) ∧
      parse ['"', '\\', 'r', '"'] = .ok (.String ['\r']) ∧
      parse ['"', '\\', '"', '"'] = .ok (.String ['"']) ∧
      parse ['"', '\\', '\\', '"'] = .ok (.String ['\\']) ∧
      parse ['"', '\\', '/', '"'] = .ok (.String ['/']) ∧
      parse ['"', '\\', 'b', '"'] = .error (.unexpectedToken 2 'b') ∧
      parse ['"', '\\', 'f', '"'] = .error (.unexpectedToken 2 'f') ∧
      ∀ fuel acc i j c2 rest, c2 ≠ '"' → c2 ≠ '\\' → c2 ≠ '/' → c2 ≠ 'n' →
        c2 ≠ 'r' → c2 ≠ 't' → c2 ≠ 'u' →
        parse_string_go (fuel + 1) acc ((i, '\\') :: (j, c2) :: rest) =
          .error (.unexpectedToken j c2) := by
  refine ⟨rfl, rfl, rfl, rfl, rfl, rfl, rfl, rfl, rfl, ?_⟩
  intro fuel acc i j c2 rest h1 h2 h3 h4 h5 h6 h7
  simp [parse_string_go, h1, h2, h3, h4, h5, h6, h7]

/-- Witness for C4 at the concrete unrecognized escape character q. -/
theorem escape_decoding_witness :
    parse_string_go 1 [] [(0, '\\'), (1, 'q')] = .error (.unexpectedToken 1 'q') :=
  escape_decoding.2.2.2.2.2.2.2.2.2 0 [] 0 1 'q' []
    (by decide) (by decide) (by decide) (by decide) (by decide) (by decide) (by decide)

/-- C5: 0 parses to Number 0.0, -0 to Number -0.0 (sign flag set, magnitude
zero), 3.14 to Number 3.14; a bare minus fails (end of input), and a minus
followed by a non-digit fails at that character; a 0 whose next character
is none of dot, e, E yields the value 0 immediately with no further
characters consumed. -/
theorem numeric_edge_cases :
    parse ['0'] = .ok (.Number false 0) ∧
      parse ['-', '0'] = .ok (.Number true 0) ∧
      parse ['3', '.', '1', '4'] = .ok (.Number false (157 / 50 : ℚ)) ∧
      parse ['-'] = .error .unexpectedEndOfInput ∧
      (∀ i c rest, ¬c.isDigit →
        parse_number '-' ((i, c) :: rest) = .error (.unexpectedToken i c)) ∧
      (∀ i c rest, c ≠ '.' → c ≠ 'e' → c ≠ 'E' →
        parse_number '0' ((i, c) :: rest) = .ok (.Number false 0, (i, c) :: rest)) := by
  refine ⟨rfl, rfl, ?_, rfl, ?_, ?_⟩
  · have e1 : parse ['3', '.', '1', '4'] =
        .ok (.Number false
          ((digitsToNat ['3'] : ℚ) + (digitsToNat ['1', '4'] : ℚ) / (10 : ℚ) ^ (2 : ℕ))) := rfl
    rw [e1]
    norm_num [show digitsToNat ['3'] = 3 from rfl, show digitsToNat ['1', '4'] = 14 from rfl]
  · intro i c rest h
    simp [parse_number, h]
  · intro i c rest h1 h2 h3
    simp [parse_number, h1, h2, h3]

/-- C6: parse_unicode succeeds exactly on four leading case-insensitive hex
digits whose accumulated (most significant digit first) value is a valid
character, consuming exactly those four characters and yielding that
character; when the four leading characters are not all present-and-hex it
fails with an error, when the accumulated value is not a valid character it
fails with an unexpected token u at the start position, and in particular
the unpaired surrogate escape uD800 inside a string makes the whole parse
fail. -/
theorem unicode_escape :
    (∀ start st ch st', parse_unicode start st = .ok (ch, st') ↔
      ∃ i0 c0 v0 i1 c1 v1 i2 c2 v2 i3 c3 v3,
        st = (i0, c0) :: (i1, c1) :: (i2, c2) :: (i3, c3) :: st' ∧
        hex_digit_val c0 = some v0 ∧ hex_digit_val c1 = some v1 ∧
        hex_digit_val c2 = some v2 ∧ hex_digit_val c3 = some v3 ∧
        ch.toNat = 16 ^ 3 * v0 + 16 ^ 2 * v1 + 16 ^ 1 * v2 + 16 ^ 0 * v3) ∧
    (∀ start st, (¬ ∃ i0 c0 v0 i1 c1 v1 i2 c2 v2 i3 c3 v3 rest,
        st = (i0, c0) :: (i1, c1) :: (i2, c2) :: (i3, c3) :: rest ∧
        hex_digit_val c0 = some v0 ∧ hex_digit_val c1 = some v1 ∧
        hex_digit_val c2 = some v2 ∧ hex_digit_val c3 = some v3) →
      ∃ e, parse_unicode start st = .error e) ∧
    (∀ start i0 c0 v0 i1 c1 v1 i2 c2 v2 i3 c3 v3 rest,
      hex_digit_val c0 = some v0 → hex_digit_val c1 = some v1 →
      hex_digit_val c2 = some v2 → hex_digit_val c3 = some v3 →
      ¬(16 ^ 3 * v0 + 16 ^ 2 * v1 + 16 ^ 1 * v2 + 16 ^ 0 * v3).isValidChar →
      parse_unicode start ((i0, c0) :: (i1, c1) :: (i2, c2) :: (i3, c3) :: rest) =
        .error (.unexpectedToken start 'u')) ∧
    parse ['"', '\\', 'u', 'D', '8', '0', '0', '"'] = .error (.unexpectedToken 2 'u') := by
  refine ⟨?_, ?_, ?_, rfl⟩
  · intro start st ch st'
    constructor
    · intro h
      rcases st with _ | ⟨⟨i0, c0⟩, t0⟩
      · simp [parse_unicode, next_hex] at h
      rcases hv0 : hex_digit_val c0 with _ | v0
      · simp [parse_unicode, next_hex, hv0] at h
      rcases t0 with _ | ⟨⟨i1, c1⟩, t1⟩
      · simp [parse_unicode, next_hex, hv0] at h
      rcases hv1 : hex_digit_val c1 with _ | v1
      · simp [parse_unicode, next_hex, hv0, hv1] at h
      rcases t1 with _ | ⟨⟨i2, c2⟩, t2⟩
      · simp [parse_unicode, next_hex, hv0, hv1] at h
      rcases hv2 : hex_digit_val c2 with _ | v2
      · simp [parse_unicode, next_hex, hv0, hv1, hv2] at h
      rcases t2 with _ | ⟨⟨i3, c3⟩, t3⟩
      · simp [parse_unicode, next_hex, hv0, hv1, hv2] at h
      rcases hv3 : hex_digit_val c3 with _ | v3
      · simp [parse_unicode, next_hex, hv0, hv1, hv2, hv3] at h
      simp only [parse_unicode, next_hex, hv0, hv1, hv2, hv3] at h
      split at h
      · rw [Except.ok.injEq, Prod.mk.injEq] at h
        obtain ⟨hch, hst⟩ := h
        subst hst
        exact ⟨i0, c0, v0, i1, c1, v1, i2, c2, v2, i3, c3, v3, rfl,
          hv0, hv1, hv2, hv3, by rw [← hch, toNat_ofNatAux]⟩
      · exact absurd h (by simp)
    · rintro ⟨i0, c0, v0, i1, c1, v1, i2, c2, v2, i3, c3, v3, rfl,
        hv0, hv1, hv2, hv3, hch⟩
      have hval : (16 ^ 3 * v0 + 16 ^ 2 * v1 + 16 ^ 1 * v2 + 16 ^ 0 * v3).isValidChar := by
        rw [← hch]; exact ch.valid
      simp only [parse_unicode, next_hex, hv0, hv1, hv2, hv3]
      rw [dif_pos hval]
      exact congrArg (fun c => Except.ok (c, st'))
        (char_eq_of_toNat_eq (by rw [toNat_ofNatAux]; exact hch.symm))
  · intro start st hne
    rcases st with _ | ⟨⟨i0, c0⟩, t0⟩
    · exact ⟨.unexpectedEndOfInput, by simp [parse_unicode, next_hex]⟩
    rcases hv0 : hex_digit_val c0 with _ | v0
    · exact ⟨.unexpectedToken i0 c0, by simp [parse_unicode, next_hex, hv0]⟩
    rcases t0 with _ | ⟨⟨i1, c1⟩, t1⟩
    · exact ⟨.unexpectedEndOfInput, by simp [parse_unicode, next_hex, hv0]⟩
    rcases hv1 : hex_digit_val c1 with _ | v1
    · exact ⟨.unexpectedToken i1 c1, by simp [parse_unicode, next_hex, hv0, hv1]⟩
    rcases t1 with _ | ⟨⟨i2, c2⟩, t2⟩
    · exact ⟨.unexpectedEndOfInput, by simp [parse_unicode, next_hex, hv0, hv1]⟩
    rcases hv2 : hex_digit_val c2 with _ | v2
    · exact ⟨.unexpectedToken i2 c2, by simp [parse_unicode, next_hex, hv0, hv1, hv2]⟩
    rcases t2 with _ | ⟨⟨i3, c3⟩, t3⟩
    · exact ⟨.unexpectedEndOfInput, by simp [parse_unicode, next_hex, hv0, hv1, hv2]⟩
    rcases hv3 : hex_digit_val c3 with _ | v3
    · exact ⟨.unexpectedToken i3 c3, by simp [parse_unicode, next_hex, hv0, hv1, hv2, hv3]⟩
    exact absurd ⟨i0, c0, v0, i1, c1, v1, i2, c2, v2, i3, c3, v3, t3,
      rfl, hv0, hv1, hv2, hv3⟩ hne
  · intro start i0 c0 v0 i1 c1 v1 i2 c2 v2 i3 c3 v3 rest hv0 hv1 hv2 hv3 hinv
    simp only [parse_unicode, next_hex, hv0, hv1, hv2, hv3]
    rw [dif_neg hinv]

/-- Witness for C6: the escape digits 0041 decode to the character A. -/
theorem unicode_escape_witness :
    parse_unicode 0 [(0, '0'), (1, '0'), (2, '4'), (3, '1')] = .ok ('A', []) :=
  (unicode_escape.1 0 [(0, '0'), (1, '0'), (2, '4'), (3, '1')] 'A' []).mpr
    ⟨0, '0', 0, 1, '0', 0, 2, '4', 4, 3, '1', 1, rfl, rfl, rfl, rfl, rfl, by decide⟩

/-- C7 (amended): whenever the string-body scan (the opening quote already
consumed) runs off the end of the input without finding an unescaped
closing quote and without first hitting a bad escape — including when the
input ends right after a lone backslash or inside the four hex digits of a
unicode escape — parse_string fails with UnexpectedEndOfInput, not an
unexpected-token error, and so does the whole parse of a quote followed by
such an unterminated body.  (The literal claim, quantifying over every
input that ends before a closing quote, is refuted by the counterexample:
an unterminated body that hits an unrecognized escape reports that token
error instead.) -/
theorem unterminated_string :
    (∀ st, Unterminated st → ∀ acc fuel, st.length + 1 ≤ fuel →
      parse_string_go fuel acc st = .error .unexpectedEndOfInput) ∧
    (∀ s, Unterminated (charIndices 1 s) →
      parse ('"' :: s) = .error .unexpectedEndOfInput) := by
  have h1 : ∀ st, Unterminated st → ∀ acc fuel, st.length + 1 ≤ fuel →
      parse_string_go fuel acc st = .error .unexpectedEndOfInput := by
    intro st hu
    induction hu with
    | nil =>
      intro acc fuel hfuel
      rcases fuel with _ | fuel
      · omega
      · simp [parse_string_go]
    | plain i c rest hc1 hc2 hrest ih =>
      intro acc fuel hfuel
      rcases fuel with _ | fuel
      · omega
      · simp only [parse_string_go]
        rw [if_neg hc1, if_neg hc2]
        exact ih (acc ++ [c]) fuel (by simp at hfuel ⊢; omega)
    | escEnd i =>
      intro acc fuel hfuel
      rcases fuel with _ | fuel
      · omega
      · simp [parse_string_go]
    | escSimple i j c rest hc hrest ih =>
      intro acc fuel hfuel
      rcases fuel with _ | fuel
      · omega
      · rcases hc with rfl | rfl | rfl | rfl | rfl | rfl <;>
          simp only [parse_string_go] <;>
          simp <;>
          exact ih _ fuel (by simp at hfuel ⊢; omega)
    | escUnicode i j rest st' ch hpu hrest ih =>
      intro acc fuel hfuel
      rcases fuel with _ | fuel
      · omega
      · simp only [parse_string_go]
        simp [hpu]
        exact ih _ fuel (by
          have := parse_unicode_length hpu
          simp at hfuel
          omega)
    | escUnicodeEnd i j rest hpu =>
      intro acc fuel hfuel
      rcases fuel with _ | fuel
      · omega
      · simp [parse_string_go, hpu]
  refine ⟨h1, ?_⟩
  intro s hu
  have h2 := h1 (charIndices 1 s) hu [] ((charIndices 1 s).length + 1) le_rfl
  show Parser.parse (3 * ('"' :: s).length + 3) (charIndices 0 ('"' :: s)) = _
  have hf : (3 : ℕ) * ('"' :: s).length + 3 = (3 * ('"' :: s).length + 2) + 1 := rfl
  rw [hf]
  have hchar : charIndices 0 ('"' :: s) = (0, '"') :: charIndices 1 s := rfl
  rw [hchar]
  simp [Parser.parse, parse_value, consume_whitespace, isWs, parse_string, h2]

/-- Counterexample to the literal reading of C7: the three-character input
quote, backslash, letter b has its opening quote consumed and ends before
any closing quote is found, yet parsing fails with an unexpected-token
error at the unrecognized escape character b (byte offset 2), not with
UnexpectedEndOfInput. -/
theorem unterminated_string_cx :
    parse ['"', '\\', 'b'] = .error (.unexpectedToken 2 'b') ∧
      (Except.error (ParseError.unexpectedToken 2 'b') :
        Except ParseError Value) ≠ .error .unexpectedEndOfInput :=
  ⟨rfl, by simp⟩

/-- Witness for C7: the unterminated input consisting of a quote, an
escaped backslash and two plain characters fails with
UnexpectedEndOfInput, and so does the unterminated input that ends inside
the hex digits of a unicode escape. -/
theorem unterminated_string_witness :
    parse ['"', '\\', '\\', 'l', 'l'] = .error .unexpectedEndOfInput ∧
      parse ['"', '\\', 'u', '1'] = .error .unexpectedEndOfInput :=
  ⟨unterminated_string.2 ['\\', '\\', 'l', 'l'] (by
    show Unterminated [(1, '\\'), (2, '\\'), (3, 'l'), (4, 'l')]
    exact .escSimple 1 2 '\\' _ (Or.inr (Or.inl rfl))
      (.plain 3 'l' _ (by decide) (by decide)
        (.plain 4 'l' _ (by decide) (by decide) .nil))),
   unterminated_string.2 ['\\', 'u', '1'] (by
    show Unterminated [(1, '\\'), (2, 'u'), (3, '1')]
    exact .escUnicodeEnd 1 2 [(3, '1')] rfl)⟩

/-- Witness for C5 at the concrete non-digit character x. -/
theorem numeric_edge_cases_witness :
    parse_number '-' [(0, 'x')] = .error (.unexpectedToken 0 'x') ∧
      parse_number '0' [(0, 'x')] = .ok (.Number false 0, [(0, 'x')]) :=
  ⟨numeric_edge_cases.2.2.2.2.1 0 'x' [] (by decide),
    numeric_edge_cases.2.2.2.2.2 0 'x' [] (by decide) (by decide) (by decide)⟩

end RJson
